import Mathlib

/-!
Verification of the flowchart plugin core: the graph intermediate
representation (src/apps/backend/flowchart/ir.py), its validator
(src/apps/backend/flowchart/validator.py) and its plan generator
(src/apps/backend/flowchart/generator.py), shallowly embedded in Lean.

Python dictionaries are embedded as update-functions or association
lists; the `in_degree` counter of the topological sort and the memo
table of the level computation are threaded explicitly.  Loops whose
termination Python leaves implicit are given an explicit fuel that is
provably never exhausted (the fuel bounds used strictly dominate the
recursion depth / iteration count of the Python code, so the embedded
functions agree with the source on every input).
-/

set_option linter.unusedVariables false

/-- Types of nodes in a flowchart (ir.py, `NodeType`). -/
inductive NodeType where
  | start
  | end_
  | process
  | decision
  | human_review
deriving DecidableEq, Repr

/-- A single node/task in the flowchart (ir.py, `TaskNode`).
`metadata` is an open string-keyed mapping; only string values are ever
read by the core (`_determine_service` reads key "service"), so it is
embedded as an association list of strings. -/
structure TaskNode where
  id : String
  name : String
  node_type : NodeType
  model : String := "claude"
  system_prompt : Option String := none
  inputs : List String := []
  outputs : List String := []
  metadata : List (String × String) := []
deriving DecidableEq, Repr

/-- A directed edge between two nodes (ir.py, `TaskEdge`). -/
structure TaskEdge where
  source_id : String
  target_id : String
  condition : Option String := none
  label : Option String := none
deriving DecidableEq, Repr

/-- A validation error or warning (ir.py, `ValidationError`). -/
structure ValidationError where
  code : String
  message : String
  node_id : Option String := none
  severity : String := "error"
deriving DecidableEq, Repr

/-- The complete task graph (ir.py, `TaskGraph`). -/
structure TaskGraph where
  nodes : List TaskNode := []
  edges : List TaskEdge := []
  metadata : List (String × String) := []
deriving DecidableEq, Repr

def TaskNode.is_start (n : TaskNode) : Bool := n.node_type = NodeType.start

def TaskNode.is_end (n : TaskNode) : Bool := n.node_type = NodeType.end_

def TaskNode.is_decision (n : TaskNode) : Bool := n.node_type = NodeType.decision

/-- ir.py `TaskNode.is_human`: model == "human" or node_type == HUMAN_REVIEW. -/
def TaskNode.is_human (n : TaskNode) : Bool :=
  n.model = "human" || n.node_type = NodeType.human_review

namespace TaskGraph

/-- The list of node ids, in node order. -/
def ids (g : TaskGraph) : List String := g.nodes.map (·.id)

/-- ir.py `_node_map` lookup: the dict comprehension is last-write-wins on
duplicate ids, so the lookup returns the last node carrying the id. -/
def get_node (g : TaskGraph) (node_id : String) : Option TaskNode :=
  g.nodes.reverse.find? (fun n => n.id = node_id)

/-- ir.py `get_start_node`: first node whose type is start. -/
def get_start_node (g : TaskGraph) : Option TaskNode :=
  g.nodes.find? (fun n => n.is_start)

/-- ir.py `get_end_nodes`. -/
def get_end_nodes (g : TaskGraph) : List TaskNode :=
  g.nodes.filter (fun n => n.is_end)

/-- ir.py `get_outgoing_edges`. -/
def get_outgoing_edges (g : TaskGraph) (node_id : String) : List TaskEdge :=
  g.edges.filter (fun e => e.source_id = node_id)

/-- ir.py `get_incoming_edges`. -/
def get_incoming_edges (g : TaskGraph) (node_id : String) : List TaskEdge :=
  g.edges.filter (fun e => e.target_id = node_id)

/-- ir.py `get_successors`: edge targets resolved through the node map,
silently dropping targets absent from it. -/
def get_successors (g : TaskGraph) (node_id : String) : List TaskNode :=
  (g.get_outgoing_edges node_id).filterMap (fun e => g.get_node e.target_id)

/-- ir.py `get_predecessors`: edge sources resolved through the node map,
silently dropping sources absent from it. -/
def get_predecessors (g : TaskGraph) (node_id : String) : List TaskNode :=
  (g.get_incoming_edges node_id).filterMap (fun e => g.get_node e.source_id)

/-- ir.py `get_dependencies`. -/
def get_dependencies (g : TaskGraph) (node_id : String) : List String :=
  (g.get_incoming_edges node_id).map (·.source_id)

end TaskGraph

/-- Pointwise update of a function-embedded dictionary. -/
def upd {β : Type} (f : String → β) (k : String) (v : β) : String → β :=
  fun x => if x = k then v else f x

/-- Python `str.lower()` (ASCII case folding, as the keyword tables need). -/
def strLower (s : String) : String := String.mk (s.data.map Char.toLower)

/-- Python `str.strip()`: drop whitespace from both ends. -/
def strTrim (s : String) : String :=
  String.mk (((s.data.dropWhile Char.isWhitespace).reverse.dropWhile
    Char.isWhitespace).reverse)

/-- Lexicographic string order, decided on the character lists so that
closed instances reduce inside the kernel (Python compares strings the
same way, by code points). -/
instance (priority := 2000) decLeStringLists : ∀ a b : String, Decidable (a ≤ b) :=
  fun a b => decidable_of_iff (a.toList ≤ b.toList) String.le_iff_toList_le.symm

namespace TaskGraph

/-- ir.py topological_sort: the initial `in_degree` dict, built by starting
every node id at 0 and bumping the target of every edge whose target id is
a key of the dict. Ids outside the dict are mapped to 0 (they are never
read by the algorithm). -/
def initDeg (g : TaskGraph) : String → Int :=
  g.edges.foldl
    (fun d e => if e.target_id ∈ g.ids then upd d e.target_id (d e.target_id + 1) else d)
    (fun _ => 0)

/-- ir.py topological_sort: the initial queue of nodes with in-degree 0. -/
def initQueue (g : TaskGraph) : List TaskNode :=
  g.nodes.filter (fun n => g.initDeg n.id = 0)

/-- The comparison `queue.sort(key=lambda n: n.id)` sorts by. -/
def nodeLe (a b : TaskNode) : Prop := a.id ≤ b.id

instance : DecidableRel nodeLe := fun a b => inferInstanceAs (Decidable (a.id ≤ b.id))

instance : IsTotal TaskNode nodeLe := ⟨fun a b => le_total a.id b.id⟩

instance : IsTrans TaskNode nodeLe := ⟨fun _ _ _ h h' => le_trans h h'⟩

/-- ir.py topological_sort, inner loop over the popped node's successors:
each successor's in-degree is decremented and, on hitting zero, the
successor is appended to the queue. -/
def kahnProcess : List TaskNode → (String → Int) → List TaskNode →
    ((String → Int) × List TaskNode)
  | [], deg, queue => (deg, queue)
  | s :: rest, deg, queue =>
    let deg' := upd deg s.id (deg s.id - 1)
    if deg' s.id = 0 then kahnProcess rest deg' (queue ++ [s])
    else kahnProcess rest deg' queue

/-- ir.py topological_sort, the `while queue` loop: sort the queue by node
id, pop the head, append it to the result, then process its successors.
The fuel strictly dominates the number of iterations the Python loop can
make (each node object is enqueued at most once, so at most
`2 * |nodes|` pops happen), hence the zero-fuel branch is unreachable. -/
def kahnLoop (g : TaskGraph) : Nat → List TaskNode → List TaskNode → (String → Int) →
    List TaskNode
  | 0, _, result, _ => result
  | fuel + 1, queue, result, deg =>
    match List.insertionSort nodeLe queue with
    | [] => result
    | n :: rest =>
      let p := kahnProcess (g.get_successors n.id) deg rest
      kahnLoop g fuel p.2 (result ++ [n]) p.1

/-- The node sequence produced by Kahn's algorithm in ir.py topological_sort. -/
def kahnOrder (g : TaskGraph) : List TaskNode :=
  kahnLoop g (2 * g.nodes.length + 1) g.initQueue [] g.initDeg

/-- ir.py `topological_sort`: returns the Kahn order, or raises ValueError
naming the ids of the nodes that could not be placed. The raised condition
is embedded as the `Except.error` carrying exactly that id list. -/
def topological_sort (g : TaskGraph) : Except (List String) (List TaskNode) :=
  let result := kahnOrder g
  if result.length ≠ g.nodes.length then
    Except.error ((g.nodes.filter (fun n => ¬ result.any (fun r => r.id = n.id))).map (·.id))
  else
    Except.ok result

/-- ir.py get_parallel_groups, the memoized `calculate_level` recursion.
State: the `levels` memo dict (threaded) and the per-branch `visited` set
(copied downwards, as `visited.copy()` does). A fuel of `|nodes| + 1`
strictly dominates the recursion depth: every recursive call adds a fresh
node id to `visited`, and `visited` only ever holds node ids. -/
def calcLevel (g : TaskGraph) : Nat → String → List String → (String → Option Nat) →
    Nat × (String → Option Nat)
  | 0, _, _, levels => (0, levels)
  | fuel + 1, node_id, visited, levels =>
    match levels node_id with
    | some k => (k, levels)
    | none =>
      if node_id ∈ visited then (0, levels)
      else
        let visited' := node_id :: visited
        let preds := g.get_predecessors node_id
        if preds.isEmpty then (0, upd levels node_id (some 0))
        else
          let m := preds.foldl
            (fun (acc : Nat × (String → Option Nat)) p =>
              let r := calcLevel g fuel p.id visited' acc.2
              (max acc.1 r.1, r.2))
            (0, levels)
          (m.1 + 1, upd m.2 node_id (some (m.1 + 1)))

/-- ir.py get_parallel_groups, the `for node in self.nodes: calculate_level(...)`
pass: the final memo table. -/
def computeLevels (g : TaskGraph) : String → Option Nat :=
  g.nodes.foldl (fun levels n => (calcLevel g (g.nodes.length + 1) n.id [] levels).2)
    (fun _ => none)

/-- ir.py get_parallel_groups reads a node's level as `levels.get(node.id, 0)`. -/
def levelOf (g : TaskGraph) (node_id : String) : Nat :=
  (g.computeLevels node_id).getD 0

/-- ir.py `get_parallel_groups`: group the nodes by level (dict insertion
order groups them in node order) and return the groups by ascending level. -/
def get_parallel_groups (g : TaskGraph) : List (List TaskNode) :=
  let ks := List.insertionSort (· ≤ ·) (g.nodes.map (fun n => g.levelOf n.id)).dedup
  ks.map (fun k => g.nodes.filter (fun n => g.levelOf n.id = k))

/-- The Python truthiness chain `edge.condition or edge.label or "default"`:
`None` and the empty string both fall through. -/
def edgeCond (e : TaskEdge) : String :=
  match e.condition with
  | some c => if c = "" then (match e.label with
      | some l => if l = "" then "default" else l
      | none => "default")
    else c
  | none => match e.label with
    | some l => if l = "" then "default" else l
    | none => "default"

/-- Append a target into the branch bucket for a condition, creating the
bucket at the end on first use (dict insertion-order semantics). -/
def addBranch (bs : List (String × List TaskNode)) (c : String) (t : TaskNode) :
    List (String × List TaskNode) :=
  match bs with
  | [] => [(c, [t])]
  | (c', ts) :: rest =>
    if c' = c then (c', ts ++ [t]) :: rest else (c', ts) :: addBranch rest c t

/-- ir.py `get_decision_branches`: map each condition label to the targets
of the decision node's outgoing edges, skipping targets that resolve to no
node. -/
def get_decision_branches (g : TaskGraph) (decision_node_id : String) :
    List (String × List TaskNode) :=
  (g.get_outgoing_edges decision_node_id).foldl
    (fun bs e =>
      match g.get_node e.target_id with
      | some t => addBranch bs (edgeCond e) t
      | none => bs)
    []

end TaskGraph

/-! ## Validator (validator.py) -/

/-- validator.py `ValidationResult`. -/
structure ValidationResult where
  valid : Bool := true
  errors : List ValidationError := []
  warnings : List ValidationError := []
deriving DecidableEq, Repr

/-- validator.py `ValidationResult.add_error`: append the error and clear
the valid flag. -/
def ValidationResult.add_error (r : ValidationResult) (code message : String)
    (node_id : Option String) : ValidationResult :=
  { r with
    errors := r.errors ++ [{ code := code, message := message, node_id := node_id,
                             severity := "error" }],
    valid := false }

/-- validator.py `ValidationResult.add_warning`: append the warning,
leaving the valid flag untouched. -/
def ValidationResult.add_warning (r : ValidationResult) (code message : String)
    (node_id : Option String) : ValidationResult :=
  { r with
    warnings := r.warnings ++ [{ code := code, message := message, node_id := node_id,
                                 severity := "warning" }] }

namespace FlowchartValidator

/-- validator.py `_check_empty_graph`. -/
def check_empty_graph (g : TaskGraph) (r : ValidationResult) : ValidationResult :=
  if g.nodes.isEmpty then
    r.add_error "EMPTY_GRAPH" "The flowchart contains no nodes" none
  else r

/-- validator.py `_check_start_nodes`. -/
def check_start_nodes (g : TaskGraph) (r : ValidationResult) : ValidationResult :=
  let start_nodes := g.nodes.filter (fun n => n.node_type = NodeType.start)
  if start_nodes.length = 0 then
    let nodes_with_incoming := g.edges.map (·.target_id)
    let potential_starts := g.nodes.filter (fun n => ¬ n.id ∈ nodes_with_incoming)
    match potential_starts with
    | p :: _ =>
      r.add_warning "NO_EXPLICIT_START"
        ("No explicit start node found. Node '" ++ p.name ++
         "' has no incoming edges and will be used as the start node.")
        (some p.id)
    | [] =>
      r.add_error "NO_START_NODE" "The flowchart must have a start node" none
  else if start_nodes.length > 1 then
    let node_names := String.intercalate ", "
      (start_nodes.map (fun n => "'" ++ n.name ++ "' (" ++ n.id ++ ")"))
    r.add_error "MULTIPLE_START_NODES"
      ("The flowchart has multiple start nodes: " ++ node_names ++ ". Only one is allowed.")
      none
  else r

/-- validator.py `_check_end_nodes`. -/
def check_end_nodes (g : TaskGraph) (r : ValidationResult) : ValidationResult :=
  let end_nodes := g.nodes.filter (fun n => n.node_type = NodeType.end_)
  if end_nodes.length = 0 then
    let nodes_with_outgoing := g.edges.map (·.source_id)
    let potential_ends := (g.nodes.filter (fun n => ¬ n.id ∈ nodes_with_outgoing)).filter
      (fun n => ¬ n.node_type = NodeType.start)
    match potential_ends with
    | p :: _ =>
      r.add_warning "NO_EXPLICIT_END"
        ("No explicit end node found. Node '" ++ p.name ++
         "' has no outgoing edges and will be used as an end node.")
        (some p.id)
    | [] =>
      r.add_error "NO_END_NODE" "The flowchart must have at least one end node" none
  else r

/-- validator.py `_check_edge_references`. -/
def check_edge_references (g : TaskGraph) (r : ValidationResult) : ValidationResult :=
  g.edges.foldl
    (fun r e =>
      let r := if ¬ e.source_id ∈ g.ids then
          r.add_error "INVALID_EDGE_SOURCE"
            ("Edge references non-existent source node: " ++ e.source_id) none
        else r
      if ¬ e.target_id ∈ g.ids then
        r.add_error "INVALID_EDGE_TARGET"
          ("Edge references non-existent target node: " ++ e.target_id) none
      else r)
    r

/-- validator.py `_check_decision_nodes`. The list `conditions` keeps only
Python-truthy condition strings, so `none` and `""` both drop out. -/
def check_decision_nodes (g : TaskGraph) (r : ValidationResult) : ValidationResult :=
  g.nodes.foldl
    (fun r n =>
      if ¬ n.node_type = NodeType.decision then r
      else
        let outgoing := g.get_outgoing_edges n.id
        if outgoing.length < 2 then
          r.add_error "DECISION_INSUFFICIENT_BRANCHES"
            ("Decision node '" ++ n.name ++ "' (" ++ n.id ++ ") must have at least " ++
             "2 outgoing edges, but has " ++ toString outgoing.length)
            (some n.id)
        else if outgoing.length = 2 then
          let conditions := outgoing.filterMap
            (fun e => match e.condition with
              | some c => if c = "" then none else some c
              | none => none)
          if conditions.isEmpty then
            r.add_warning "DECISION_NO_CONDITIONS"
              ("Decision node '" ++ n.name ++ "' (" ++ n.id ++ ") has no " ++
               "conditions on its edges. Consider adding labels like " ++
               "'Yes'/'No' or 'Validated'/'Rejected'.")
              (some n.id)
          else r
        else r)
    r

/-- validator.py `_check_orphan_nodes`. -/
def check_orphan_nodes (g : TaskGraph) (r : ValidationResult) : ValidationResult :=
  let nodes_with_edges := g.edges.flatMap (fun e => [e.source_id, e.target_id])
  g.nodes.foldl
    (fun r n =>
      if n.id ∈ nodes_with_edges then r
      else if n.node_type = NodeType.start then
        if (g.get_outgoing_edges n.id).isEmpty then
          r.add_error "START_NO_OUTGOING"
            ("Start node '" ++ n.name ++ "' (" ++ n.id ++ ") has no outgoing edges")
            (some n.id)
        else r
      else if n.node_type = NodeType.end_ then
        if (g.get_incoming_edges n.id).isEmpty then
          r.add_error "END_NO_INCOMING"
            ("End node '" ++ n.name ++ "' (" ++ n.id ++ ") has no incoming edges")
            (some n.id)
        else r
      else
        r.add_error "ORPHAN_NODE"
          ("Node '" ++ n.name ++ "' (" ++ n.id ++ ") is not connected to any other node")
          (some n.id))
    r

/-- validator.py `_check_connectivity`, the BFS over successor edges.
The fuel dominates the number of loop iterations (at most one initial
enqueue plus one per edge). -/
def bfsVisit (g : TaskGraph) : Nat → List String → List String → List String
  | 0, _, visited => visited
  | _ + 1, [], visited => visited
  | fuel + 1, current :: rest, visited =>
    if current ∈ visited then bfsVisit g fuel rest visited
    else
      let visited' := visited ++ [current]
      let appended := (g.get_successors current).filterMap
        (fun s => if s.id ∈ visited' then none else some s.id)
      bfsVisit g fuel (rest ++ appended) visited'

/-- validator.py `_check_connectivity`. -/
def check_connectivity (g : TaskGraph) (r : ValidationResult) : ValidationResult :=
  match g.get_start_node with
  | none => r
  | some start_node =>
    let visited := bfsVisit g (g.nodes.length + g.edges.length + 2) [start_node.id] []
    let unreachable := g.nodes.filter (fun n => ¬ n.id ∈ visited)
    if unreachable.isEmpty then r
    else
      let names := String.intercalate ", "
        ((unreachable.take 3).map (fun n => "'" ++ n.name ++ "'"))
      let names := if unreachable.length > 3 then
          names ++ " and " ++ toString (unreachable.length - 3) ++ " more"
        else names
      r.add_warning "UNREACHABLE_NODES"
        ("Some nodes are not reachable from the start node: " ++ names) none

/-- validator.py `_check_cycles`, cycle reconstruction: walk the parent
chain from `current` back towards `target`, mirroring the `while` loop
(`parent.get(current, "")` yields a falsy value — `None` or `""` — when
the chain runs out, breaking the loop). -/
def cycleWalk (parent : String → Option String) :
    Nat → String → String → List String → List String
  | 0, _, _, acc => acc
  | fuel + 1, current, target, acc =>
    if current = target then acc
    else
      let acc := acc ++ [current]
      match parent current with
      | none => acc
      | some p => if p = "" then acc else cycleWalk parent fuel p target acc

/-- validator.py `_check_cycles`: reconstruct and orient the reported
cycle path for a back edge from `node_id` to `succ_id`. -/
def reconstructCycle (parent : String → Option String) (fuel : Nat)
    (node_id succ_id : String) : List String :=
  (cycleWalk parent fuel node_id succ_id [succ_id] ++ [succ_id]).reverse

/-- The two shapes of pending work in the `_check_cycles` DFS: entering
`dfs(node_id)`, or continuing its `for successor in ...` loop. -/
inductive DfsCall where
  | node (node_id : String)
  | succs (rest : List TaskNode) (node_id : String)

/-- validator.py `_check_cycles`, the recursive `dfs` (colors: 0 = white,
1 = gray, 2 = black): entering a node grays it and walks its successors;
a gray successor reports a reconstructed cycle, a white one is recursed
into (recording its parent first), a black one is skipped; a node whose
loop finishes without a cycle is blackened. The fuel counts every call,
so the recursion is structural; the bound passed by `check_cycles`
strictly dominates the total number of calls the Python recursion makes. -/
def dfsRun (g : TaskGraph) : Nat → DfsCall → (String → Nat) → (String → Option String) →
    Option (List String) × (String → Nat) × (String → Option String)
  | 0, _, colors, parent => (none, colors, parent)
  | fuel + 1, DfsCall.node node_id, colors, parent =>
    dfsRun g fuel (DfsCall.succs (g.get_successors node_id) node_id)
      (upd colors node_id 1) parent
  | _ + 1, DfsCall.succs [] node_id, colors, parent =>
    (none, upd colors node_id 2, parent)
  | fuel + 1, DfsCall.succs (s :: rest) node_id, colors, parent =>
    if colors s.id = 1 then
      (some (reconstructCycle parent (g.nodes.length + 1) node_id s.id), colors, parent)
    else if colors s.id = 0 then
      let parent' := upd parent s.id (some node_id)
      let rec' := dfsRun g fuel (DfsCall.node s.id) colors parent'
      match rec'.1 with
      | some cyc => (some cyc, rec'.2.1, rec'.2.2)
      | none => dfsRun g fuel (DfsCall.succs rest node_id) rec'.2.1 rec'.2.2
    else
      dfsRun g fuel (DfsCall.succs rest node_id) colors parent

/-- The per-DFS fuel: at most `|nodes|` node entries, each opening one
successor loop whose steps total at most `|nodes| + |edges|`. -/
def dfsFuel (g : TaskGraph) : Nat :=
  2 * g.nodes.length + g.edges.length + 2

/-- validator.py `_check_cycles`, the outer `for node in graph.nodes` loop:
run the DFS from every still-white node, flagging each returned cycle as a
decision-loop warning or an invalid-cycle error.  A fuel of `|nodes| + 1`
dominates the DFS depth (every recursion level grays a fresh node). -/
def check_cycles (g : TaskGraph) (r : ValidationResult) : ValidationResult :=
  (g.nodes.foldl
    (fun (acc : ValidationResult × (String → Nat) × (String → Option String)) n =>
      let (r, colors, parent) := acc
      if colors n.id = 0 then
        let d := dfsRun g (dfsFuel g) (DfsCall.node n.id) colors parent
        match d.1 with
        | some cycle =>
          let has_decision := cycle.any (fun nid =>
            match g.get_node nid with
            | some m => m.node_type = NodeType.decision
            | none => false)
          if has_decision then
            (r.add_warning "DECISION_LOOP"
              ("Found a loop through decision node. This is valid " ++
               "for retry/review workflows. Cycle: " ++
               String.intercalate " -> " cycle)
              none, d.2.1, d.2.2)
          else
            (r.add_error "INVALID_CYCLE"
              ("Found a cycle that doesn't go through a decision " ++
               "node: " ++ String.intercalate " -> " cycle ++ ". Cycles are only " ++
               "allowed for decision-based loops.")
              none, d.2.1, d.2.2)
        | none => (r, d.2.1, d.2.2)
      else acc)
    (r, (fun _ => 0), (fun _ => none))).1

/-- validator.py `_check_node_names`. -/
def check_node_names (g : TaskGraph) (r : ValidationResult) : ValidationResult :=
  g.nodes.foldl
    (fun r n =>
      if n.node_type = NodeType.start ∨ n.node_type = NodeType.end_ then r
      else if strTrim n.name = "" then
        r.add_warning "EMPTY_NODE_NAME"
          ("Node " ++ n.id ++ " has no name. Consider adding a description.")
          (some n.id)
      else
        let rest := n.name.toList.drop 5
        if "Task ".toList.isPrefixOf n.name.toList ∧ ¬ rest.isEmpty ∧
            rest.all (·.isDigit) then
          r.add_warning "GENERIC_NODE_NAME"
            ("Node '" ++ n.name ++ "' (" ++ n.id ++ ") has a generic name. " ++
             "Consider adding a more descriptive label.")
            (some n.id)
        else r)
    r

/-- validator.py `FlowchartValidator.validate`, embedded as a state pass
that threads the graph through every check unchanged: no statement of any
check assigns to the graph, so each stage returns the graph it received. -/
def validateS (g : TaskGraph) : ValidationResult × TaskGraph :=
  let step := fun (f : TaskGraph → ValidationResult → ValidationResult)
      (s : ValidationResult × TaskGraph) => (f s.2 s.1, s.2)
  let s0 := step check_empty_graph ({}, g)
  if ¬ s0.1.valid then s0
  else
    (step check_node_names <| step check_cycles <| step check_connectivity <|
      step check_orphan_nodes <| step check_decision_nodes <|
      step check_edge_references <| step check_end_nodes <|
      step check_start_nodes s0)

/-- validator.py `validate` / `validate_flowchart`: the result component. -/
def validate (g : TaskGraph) : ValidationResult :=
  (validateS g).1

end FlowchartValidator

/-! ## Plan generator (generator.py) -/

/-- Python's `kw in name` substring test. -/
def strContains (s pat : String) : Bool :=
  s.toList.tails.any (fun t => pat.toList.isPrefixOf t)

/-- Python string truthiness for optional strings: `None` and `""` are falsy. -/
def truthyStr : Option String → Option String
  | some s => if s = "" then none else some s
  | none => none

/-- A verification descriptor attached to a subtask (generator.py builds
these as small dicts; the `type` key becomes the constructor). -/
inductive Verification where
  | command (run expected : String)
  | api (method url : String) (expect_status : Nat)
  | component (scenario : String)
  | manual (scenario : String)
deriving DecidableEq, Repr

/-- A subtask dict as produced by `_node_to_subtask`; keys that the code
omits are embedded as `none`. -/
structure Subtask where
  id : String
  description : String
  status : String
  patterns_from : Option (List String) := none
  files_to_create : Option (List String) := none
  verification : Option Verification := none
  service : Option String := none
deriving DecidableEq, Repr

/-- A phase dict of the generated plan; `depends_on` and `parallel_safe`
are omitted keys when `none`. -/
structure Phase where
  phase : Nat
  name : String
  type : String
  subtasks : List Subtask
  chunks : List Subtask
  depends_on : Option (List Nat) := none
  parallel_safe : Option Bool := none
deriving DecidableEq, Repr

/-- The implementation plan (generator.py `generate`); the two
`datetime.now()` timestamps are the only fields not embedded. -/
structure Plan where
  feature : String
  workflow_type : String
  services_involved : List String
  phases : List Phase
  final_acceptance : List String
  status : String
  planStatus : String
deriving DecidableEq, Repr

namespace PlanGenerator

/-- generator.py `_sanitize_id`, collapsing runs of dashes
(`re.sub("-+", "-")`): the flag records whether the previous character
kept was a dash. -/
def collapseAux : Bool → List Char → List Char
  | _, [] => []
  | prev, c :: rest =>
    if c = '-' then
      if prev then collapseAux true rest else '-' :: collapseAux true rest
    else c :: collapseAux false rest

def collapseDashes (l : List Char) : List Char := collapseAux false l

/-- generator.py `_sanitize_id`: replace characters outside
`[a-zA-Z0-9_-]` by dashes, collapse dash runs, strip outer dashes,
lower-case. -/
def sanitize_id (node_id : String) : String :=
  let repl := node_id.toList.map (fun c => if c.isAlphanum || c = '_' || c = '-' then c else '-')
  let stripped :=
    (((collapseDashes repl).dropWhile (· = '-')).reverse.dropWhile (· = '-')).reverse
  strLower (String.mk stripped)

/-- generator.py `_determine_verification`. -/
def determine_verification (n : TaskNode) : Option Verification :=
  let nl := strLower n.name
  if ["test", "verify", "validate"].any (fun kw => strContains nl kw) then
    some (.command "npm test" "All tests pass")
  else if ["api", "endpoint", "route"].any (fun kw => strContains nl kw) then
    some (.api "GET" "/api/health" 200)
  else if ["ui", "component", "page", "render"].any (fun kw => strContains nl kw) then
    some (.component ("Component renders: " ++ n.name))
  else none

/-- generator.py `_determine_service`: an explicit `metadata["service"]`
wins, then name keywords. -/
def determine_service (n : TaskNode) : Option String :=
  match n.metadata.lookup "service" with
  | some s => some s
  | none =>
    let nl := strLower n.name
    if ["backend", "api", "server", "database", "model"].any (fun kw => strContains nl kw) then
      some "backend"
    else if ["frontend", "ui", "component", "page", "react"].any
        (fun kw => strContains nl kw) then
      some "frontend"
    else if ["worker", "queue", "job", "background"].any (fun kw => strContains nl kw) then
      some "worker"
    else none

/-- generator.py `_determine_phase_type`: ordered keyword families,
first match wins. -/
def determine_phase_type (nodes : List TaskNode) : String :=
  let hasKw := fun (kws : List String) =>
    nodes.any (fun n => kws.any (fun kw => strContains (strLower n.name) kw))
  if hasKw ["analyze", "investigate", "research", "review", "assess"] then "investigation"
  else if hasKw ["setup", "configure", "install", "initialize", "create"] then "setup"
  else if hasKw ["integrate", "connect", "wire", "combine", "merge"] then "integration"
  else if hasKw ["cleanup", "remove", "delete", "deprecate", "finalize"] then "cleanup"
  else "implementation"

/-- generator.py `_is_parallel_safe`. -/
def is_parallel_safe (nodes : List TaskNode) (g : TaskGraph) : Bool :=
  ! nodes.any (fun n =>
      (g.get_predecessors n.id).any (fun p => nodes.any (fun m => m.id = p.id)))

/-- generator.py `_node_to_subtask` (the human-review override replaces
any keyword-derived verification last). -/
def node_to_subtask (n : TaskNode) : Subtask :=
  let base : Subtask :=
    { id := sanitize_id n.id
      description := n.name
      status := "pending"
      patterns_from := if n.inputs.isEmpty then none else some n.inputs
      files_to_create := if n.outputs.isEmpty then none else some n.outputs
      verification := determine_verification n
      service := truthyStr (determine_service n) }
  if n.is_human then
    { base with verification := some (.manual ("Human review required: " ++ n.name)) }
  else base

/-- generator.py `_get_phase_dependencies`: predecessor phases different
from the node's own phase, start nodes excluded, then `sorted(set(...))`. -/
def get_phase_dependencies (nodes : List TaskNode) (g : TaskGraph)
    (phase_map : String → Option Nat) : List Nat :=
  let collected := nodes.flatMap (fun n =>
    (g.get_predecessors n.id).filterMap (fun p =>
      if p.node_type = NodeType.start then none
      else match phase_map p.id with
        | some pp => if ¬ some pp = phase_map n.id then some pp else none
        | none => none))
  List.insertionSort (· ≤ ·) collected.dedup

/-- Python `str.title()` on the single-word service names. -/
def titleWord (s : String) : String :=
  match s.toList with
  | [] => ""
  | c :: rest => String.mk (c.toUpper :: rest.map Char.toLower)

/-- generator.py `_generate_phase_name`. -/
def generate_phase_name (nodes : List TaskNode) (phase_num : Nat) : String :=
  match nodes with
  | [n] => n.name
  | _ =>
    let services := nodes.map determine_service
    let unique_services := services.dedup.filterMap truthyStr
    match unique_services with
    | [s] => titleWord s ++ " Implementation"
    | _ =>
      if nodes.any (·.is_human) then "Review & Validation"
      else "Phase " ++ toString phase_num

/-- generator.py `_collect_services`: distinct truthy services, sorted. -/
def collect_services (g : TaskGraph) : List String :=
  List.insertionSort (· ≤ ·)
    ((g.nodes.filterMap (fun n => truthyStr (determine_service n))).dedup)

/-- generator.py `_generate_acceptance_criteria`. -/
def generate_acceptance_criteria (g : TaskGraph) : List String :=
  let criteria := g.get_end_nodes.flatMap (fun e =>
    (g.get_predecessors e.id).filterMap (fun p =>
      if p.node_type = NodeType.process then some ("Completed: " ++ p.name)
      else if p.node_type = NodeType.human_review then some ("Human approved: " ++ p.name)
      else none))
  if criteria.isEmpty then
    ["All tasks completed successfully", "No critical errors or warnings"]
  else criteria

/-- generator.py `generate`: fold over the parallel groups, skipping
pure start/end groups, threading the phase list, the node-to-phase map
and the phase counter (reset at the start of each call). -/
def generate (g : TaskGraph) (feature_name : Option String) (workflow_type : String) :
    Plan :=
  let feature := match truthyStr feature_name with
    | some f => f
    | none => (g.metadata.lookup "name").getD "Flowchart Import"
  let acc := g.get_parallel_groups.foldl
    (fun (acc : List Phase × (String → Option Nat) × Nat) group =>
      let process_nodes := group.filter (fun n =>
        ¬ (n.node_type = NodeType.start ∨ n.node_type = NodeType.end_))
      if process_nodes.isEmpty then acc
      else
        let phase_num := acc.2.2 + 1
        let phase_map := process_nodes.foldl (fun pm n => upd pm n.id (some phase_num))
          acc.2.1
        let depends_on := get_phase_dependencies process_nodes g phase_map
        let parallel_safe := decide (process_nodes.length > 1) &&
          is_parallel_safe process_nodes g
        let subtasks := process_nodes.map node_to_subtask
        let phase : Phase :=
          { phase := phase_num
            name := generate_phase_name process_nodes phase_num
            type := determine_phase_type process_nodes
            subtasks := subtasks
            chunks := subtasks
            depends_on := if depends_on.isEmpty then none else some depends_on
            parallel_safe := if parallel_safe then some true else none }
        (acc.1 ++ [phase], phase_map, phase_num))
    ([], (fun _ => none), 0)
  { feature := feature
    workflow_type := workflow_type
    services_involved := collect_services g
    phases := acc.1
    final_acceptance := generate_acceptance_criteria g
    status := "backlog"
    planStatus := "pending" }

end PlanGenerator

/-- The step of the predecessor fold inside `calculate_level`: thread the
memo table and take the running maximum of the predecessors' levels. -/
def levelFoldStep (g : TaskGraph) (fuel : Nat) (vis : List String) :
    (Nat × (String → Option Nat)) → TaskNode → (Nat × (String → Option Nat)) :=
  fun acc p =>
    (max acc.1 (TaskGraph.calcLevel g fuel p.id vis acc.2).1,
     (TaskGraph.calcLevel g fuel p.id vis acc.2).2)

/-! ## Claim-level notions and concrete graphs -/

/-- The edge relation restricted to the graph's own nodes: `u → v` for an
edge whose two endpoints are ids of nodes of the graph. -/
def EdgeRelN (g : TaskGraph) (u v : String) : Prop :=
  u ∈ g.ids ∧ v ∈ g.ids ∧ ∃ e ∈ g.edges, e.source_id = u ∧ e.target_id = v

instance (g : TaskGraph) (u v : String) : Decidable (EdgeRelN g u v) := by
  unfold EdgeRelN; infer_instance

/-- No directed cycle among the graph's nodes. -/
def AcyclicN (g : TaskGraph) : Prop :=
  ∀ id, ¬ Relation.TransGen (EdgeRelN g) id id

/-- Number of edges into `id` whose source id is not carried by any node
of `placed` (the "unresolved-predecessor count" once `placed` are done). -/
def countUnresolved (g : TaskGraph) (placed : List TaskNode) (id : String) : Nat :=
  ((g.get_incoming_edges id).filter
    (fun e => ¬ placed.any (fun r => r.id = e.source_id))).length

/-- A node is ready after `placed`: it belongs to the graph, is not yet
placed, and its unresolved-predecessor count is zero. -/
def Ready (g : TaskGraph) (placed : List TaskNode) (n : TaskNode) : Prop :=
  n ∈ g.nodes ∧ n.id ∉ placed.map (·.id) ∧ countUnresolved g placed n.id = 0

/-- The level recursion stated by the spec: a node with no predecessors
has level 0, otherwise the maximum of its predecessors' levels plus 1. -/
def IsLevelAssign (g : TaskGraph) (f : String → Nat) : Prop :=
  ∀ n ∈ g.nodes,
    f n.id =
      (let ps := g.get_predecessors n.id
       if ps.isEmpty then 0 else (ps.map (fun p => f p.id)).foldl max 0 + 1)

/-- The largest level the code assigns to a node of the graph. -/
def maxLevel (g : TaskGraph) : Nat :=
  (g.nodes.map (fun n => g.levelOf n.id)).foldl max 0

/-- The acceptance-criteria contributions described by the claim: for each
end node, each direct process predecessor yields "Completed: name" and each
human-review predecessor yields "Human approved: name". -/
def specAcceptance (g : TaskGraph) : List String :=
  g.get_end_nodes.flatMap (fun e =>
    (g.get_predecessors e.id).filterMap (fun p =>
      match p.node_type with
      | NodeType.process => some ("Completed: " ++ p.name)
      | NodeType.human_review => some ("Human approved: " ++ p.name)
      | _ => none))

/-- A one-node graph with an edge whose source id names no node. -/
def gC1 : TaskGraph :=
  { nodes := [{ id := "a", name := "A", node_type := NodeType.process }]
    edges := [{ source_id := "ghost", target_id := "a" }] }

/-- Decision loop `a -> d -> a` with an extra node `x -> a` that the
cycle DFS visits only after the aborted traversal left `a` gray. -/
def gC2 : TaskGraph :=
  { nodes := [{ id := "start", name := "Start", node_type := NodeType.start },
              { id := "a", name := "Apply fix", node_type := NodeType.process },
              { id := "d", name := "Quality gate", node_type := NodeType.decision },
              { id := "x", name := "Log attempt", node_type := NodeType.process },
              { id := "end", name := "End", node_type := NodeType.end_ }]
    edges := [{ source_id := "start", target_id := "a" },
              { source_id := "a", target_id := "d" },
              { source_id := "d", target_id := "a", condition := some "retry" },
              { source_id := "d", target_id := "end", condition := some "done" },
              { source_id := "x", target_id := "a" },
              { source_id := "start", target_id := "x" }] }

/-- Two distinct nodes sharing id "s" feed the cycle `t -> p -> t`: the
shared id is popped twice, so `t`'s in-degree is decremented twice. -/
def gC3 : TaskGraph :=
  { nodes := [{ id := "s", name := "S1", node_type := NodeType.process },
              { id := "s", name := "S2", node_type := NodeType.process },
              { id := "t", name := "T", node_type := NodeType.process },
              { id := "p", name := "P", node_type := NodeType.process }]
    edges := [{ source_id := "s", target_id := "t" },
              { source_id := "t", target_id := "p" },
              { source_id := "p", target_id := "t" }] }

/-- A cyclic graph with unique node ids: cycle `b -> c -> b` below `a`. -/
def gC3W : TaskGraph :=
  { nodes := [{ id := "a", name := "A", node_type := NodeType.process },
              { id := "b", name := "B", node_type := NodeType.process },
              { id := "c", name := "C", node_type := NodeType.process }]
    edges := [{ source_id := "a", target_id := "b" },
              { source_id := "b", target_id := "c" },
              { source_id := "c", target_id := "b" }] }

/-- The linear chain start -> A -> B -> end. -/
def chainG : TaskGraph :=
  { nodes := [{ id := "s", name := "Start", node_type := NodeType.start },
              { id := "a", name := "A", node_type := NodeType.process },
              { id := "b", name := "B", node_type := NodeType.process },
              { id := "e", name := "End", node_type := NodeType.end_ }]
    edges := [{ source_id := "s", target_id := "a" },
              { source_id := "a", target_id := "b" },
              { source_id := "b", target_id := "e" }] }

/-- The diamond start -> A, start -> B, A -> end, B -> end. -/
def diamondG : TaskGraph :=
  { nodes := [{ id := "s", name := "Start", node_type := NodeType.start },
              { id := "a", name := "A", node_type := NodeType.process },
              { id := "b", name := "B", node_type := NodeType.process },
              { id := "e", name := "End", node_type := NodeType.end_ }]
    edges := [{ source_id := "s", target_id := "a" },
              { source_id := "s", target_id := "b" },
              { source_id := "a", target_id := "e" },
              { source_id := "b", target_id := "e" }] }

/-- A predecessor-free node next to a node whose only incoming edge is a
self-loop. -/
def nFree : TaskNode := { id := "a", name := "Free", node_type := NodeType.process }

def nLoopy : TaskNode := { id := "b", name := "Loopy", node_type := NodeType.process }

def gC5 : TaskGraph :=
  { nodes := [nFree, nLoopy]
    edges := [{ source_id := "b", target_id := "b" }] }

/-- The C6 scenario: start -> "Configure database" -> "Write tests" -> end. -/
def gC6 : TaskGraph :=
  { nodes := [{ id := "start", name := "Start", node_type := NodeType.start },
              { id := "n1", name := "Configure database", node_type := NodeType.process },
              { id := "n2", name := "Write tests", node_type := NodeType.process },
              { id := "end", name := "End", node_type := NodeType.end_ }]
    edges := [{ source_id := "start", target_id := "n1" },
              { source_id := "n1", target_id := "n2" },
              { source_id := "n2", target_id := "end" }] }

/-- A graph whose only node is an end node: no criteria contributions. -/
def gC7 : TaskGraph :=
  { nodes := [{ id := "e", name := "End", node_type := NodeType.end_ }] }

/-- The C8 invariant: a result is valid exactly when it holds no error. -/
def ResInv (r : ValidationResult) : Prop := r.valid = true ↔ r.errors = []

deriving instance DecidableEq for Except

/-- Number of occurrences of an id among a successor list. -/
def occIds (ss : List TaskNode) (i : String) : Nat :=
  (ss.filter (fun s => s.id = i)).length

/-- The loop invariant of Kahn's algorithm in `topological_sort`.
`S` is a set of ids closed under "has an S-predecessor edge" (instantiated
with the empty set for the DAG claim and with the ids lying on directed
cycles for the cycle claim); the invariant keeps them out of the order.
The components: the placed and queued ids are disjoint and duplicate-free;
placed and queued nodes are graph nodes; the in-degree counter equals the
unresolved-predecessor count of every graph id; queued nodes are resolved;
every graph node is placed, queued, or still blocked; placed ids are
resolved; every edge into a placed node comes from an earlier placed node;
each placed node had the lexicographically smallest id among the nodes
ready at its position; no S id is placed or queued. -/
def KahnInv (g : TaskGraph) (S : String → Prop) (result queue : List TaskNode)
    (deg : String → Int) : Prop :=
  ((result ++ queue).map (·.id)).Nodup ∧
  (∀ n ∈ result, n ∈ g.nodes) ∧
  (∀ n ∈ queue, n ∈ g.nodes) ∧
  (∀ i ∈ g.ids, deg i = (countUnresolved g result i : Int)) ∧
  (∀ n ∈ queue, countUnresolved g result n.id = 0) ∧
  (∀ m ∈ g.nodes, m.id ∈ result.map (·.id) ∨ m.id ∈ queue.map (·.id) ∨
      0 < countUnresolved g result m.id) ∧
  (∀ i ∈ result.map (·.id), countUnresolved g result i = 0) ∧
  (∀ e ∈ g.edges, ∀ j, ∀ hj : j < result.length,
      (result.get ⟨j, hj⟩).id = e.target_id →
      e.source_id ∈ (result.take j).map (·.id)) ∧
  (∀ j, ∀ hj : j < result.length, ∀ m, Ready g (result.take j) m →
      (result.get ⟨j, hj⟩).id ≤ m.id) ∧
  (∀ x, S x → ¬ x ∈ result.map (·.id) ∧ ¬ x ∈ queue.map (·.id))

/-- Invariant of the level memo table: every stored entry is a node id
whose value satisfies the level recursion relative to the table itself
(a key with no predecessors stores 0; otherwise all its predecessors are
stored and the value is the maximum of their stored levels plus 1). -/
def StoredOK (g : TaskGraph) (lv : String → Option Nat) : Prop :=
  ∀ m k, lv m = some k →
    m ∈ g.ids ∧
    (if (g.get_predecessors m).isEmpty = true then k = 0
     else (∀ p ∈ g.get_predecessors m, (lv p.id).isSome = true) ∧
       k = ((g.get_predecessors m).map (fun p => (lv p.id).getD 0)).foldl max 0 + 1)

/-! ## Theorems -/

theorem transGen_absurd {α : Type} {r : α → α → Prop} (h : ∀ u v, ¬ r u v) {a b : α}
    (hab : Relation.TransGen r a b) : False := by
  induction hab with
  | single h1 => exact h _ _ h1
  | tail _ h1 _ => exact h _ _ h1

theorem rank_lt_of_transGen (g : TaskGraph) (rank : String → Nat)
    (h : ∀ e ∈ g.edges, e.source_id ∈ g.ids → e.target_id ∈ g.ids →
      rank e.source_id < rank e.target_id) :
    ∀ u v, Relation.TransGen (EdgeRelN g) u v → rank u < rank v := by
  intro u v huv
  induction huv with
  | single h1 =>
    obtain ⟨hu, hv, e, he, hs, ht⟩ := h1
    have := h e he (by rw [hs]; exact hu) (by rw [ht]; exact hv)
    rwa [hs, ht] at this
  | tail _ h1 ih =>
    obtain ⟨hu, hv, e, he, hs, ht⟩ := h1
    have := h e he (by rw [hs]; exact hu) (by rw [ht]; exact hv)
    rw [hs, ht] at this
    exact lt_trans ih this

theorem acyclic_of_rank (g : TaskGraph) (rank : String → Nat)
    (h : ∀ e ∈ g.edges, e.source_id ∈ g.ids → e.target_id ∈ g.ids →
      rank e.source_id < rank e.target_id) :
    AcyclicN g := fun id hcyc => lt_irrefl _ (rank_lt_of_transGen g rank h id id hcyc)

theorem foldl_inv {σ α : Type} (P : σ → Prop) (f : σ → α → σ)
    (l : List α) (s : σ) (h0 : P s) (hf : ∀ t a, a ∈ l → P t → P (f t a)) :
    P (l.foldl f s) := by
  induction l generalizing s with
  | nil => exact h0
  | cons a t ih =>
    exact ih (f s a) (hf s a (List.mem_cons_self a t) h0)
      (fun u b hb => hf u b (List.mem_cons_of_mem a hb))

/-- C1 (counterexample). The graph `gC1` has no directed cycle among its
nodes (its single edge comes from an id that names no node), yet
topological_sort fails instead of returning its one node: the dangling
source's contribution to the in-degree of "a" is never resolved. -/
theorem C1_counterexample :
    AcyclicN gC1 ∧ TaskGraph.topological_sort gC1 = Except.error ["a"] := by
  constructor
  · intro id hcyc
    refine transGen_absurd (fun u v huv => ?_) hcyc
    obtain ⟨hu, hv, e, he, hs, ht⟩ := huv
    simp only [gC1] at he
    rw [List.mem_singleton] at he
    subst he
    rw [← hs] at hu
    simp [gC1, TaskGraph.ids] at hu
  · rfl

/-- C2 (code bug evaluation). In `gC2` the only directed cycle is
`a -> d -> a`, which passes through the decision node `d`; yet the
validator reports `valid = false` with an INVALID_CYCLE error naming
"a -> x -> a" — not even a path of the graph (there is no edge a -> x) —
because the aborted DFS left `a` gray and the later traversal from `x`
mistook the stale gray mark for a back edge. The claim (and the spec's
testable property) says such a graph validates with only a DECISION_LOOP
warning. -/
theorem C2_code_bug_eval :
    ((FlowchartValidator.validate gC2).valid = false ∧
      (FlowchartValidator.validate gC2).errors.map (fun e => e.code) = ["INVALID_CYCLE"] ∧
      (FlowchartValidator.validate gC2).errors.map (fun e => e.message) =
        ["Found a cycle that doesn't go through a decision node: a -> x -> a. " ++
         "Cycles are only allowed for decision-based loops."] ∧
      (FlowchartValidator.validate gC2).warnings.map (fun e => e.code) = ["DECISION_LOOP"]) ∧
    Relation.TransGen (EdgeRelN gC2) "d" "d" ∧
    (gC2.get_node "d").map (fun n => n.node_type) = some NodeType.decision ∧
    ¬ EdgeRelN gC2 "a" "x" := by
  refine ⟨⟨by decide, by decide, by decide, by decide⟩, ?_, by decide, by decide⟩
  exact @Relation.TransGen.head String (EdgeRelN gC2) "d" "a" "d" (by decide)
    (Relation.TransGen.single (by decide))

/-- C3 (counterexample). `gC3` contains the directed cycle `t -> p -> t`
among its nodes, yet topological_sort succeeds: the two distinct nodes
sharing id "s" are both popped, so the in-degree of `t` is decremented
twice and the cycle unravels. -/
theorem C3_counterexample :
    Relation.TransGen (EdgeRelN gC3) "t" "t" ∧
    TaskGraph.topological_sort gC3 = Except.ok (TaskGraph.kahnOrder gC3) ∧
    (TaskGraph.kahnOrder gC3).length = gC3.nodes.length := by
  refine ⟨?_, by decide, by decide⟩
  exact @Relation.TransGen.head String (EdgeRelN gC3) "t" "p" "t" (by decide)
    (Relation.TransGen.single (by decide))

/-- C5 (counterexample). In `gC5` the node "b" has a single incoming edge,
the self-loop b -> b, and no other predecessor; the claim says it is
assigned level 0 and placed in group 0, but the code assigns it level 1
(the cycle break returns 0 for the repeated predecessor and the caller
still adds 1), so group 0 is `[nFree]` and "b" sits in group 1. -/
theorem C5_counterexample :
    gC5.get_incoming_edges "b" = [{ source_id := "b", target_id := "b" }] ∧
    TaskGraph.levelOf gC5 "b" = 1 ∧
    TaskGraph.get_parallel_groups gC5 = [[nFree], [nLoopy]] :=
  ⟨rfl, rfl, rfl⟩

/-- C6 (confirmed). On the chain start -> "Configure database" ->
"Write tests" -> end, generate produces exactly two phases: phase 1 of
type "setup" with no depends_on, phase 2 of type "implementation" with
depends_on = [1] whose single subtask carries a command-type
verification. -/
theorem C6_generator_scenario :
    (PlanGenerator.generate gC6 none "feature").phases.map (fun p => p.phase) = [1, 2] ∧
    (PlanGenerator.generate gC6 none "feature").phases.map (fun p => p.type) =
      ["setup", "implementation"] ∧
    (PlanGenerator.generate gC6 none "feature").phases.map (fun p => p.depends_on) =
      [none, some [1]] ∧
    (PlanGenerator.generate gC6 none "feature").phases.map
        (fun p => p.subtasks.map (fun st => st.verification)) =
      [[none], [some (Verification.command "npm test" "All tests pass")]] :=
  ⟨by decide, by decide, by decide, by decide⟩

/-- C7 (counterexample). On a graph whose end node has no process or
human-review predecessor the generator falls back to the generic criteria
"All tasks completed successfully" and "No critical errors or warnings" —
not the pair "all tasks completed successfully" / "no critical errors"
stated by the claim. -/
theorem C7_counterexample :
    specAcceptance gC7 = [] ∧
    PlanGenerator.generate_acceptance_criteria gC7 =
      ["All tasks completed successfully", "No critical errors or warnings"] ∧
    PlanGenerator.generate_acceptance_criteria gC7 ≠
      ["all tasks completed successfully", "no critical errors"] := by
  refine ⟨by decide, by decide, ?_⟩
  decide

theorem resInv_add_error (r : ValidationResult) (c m : String) (nid : Option String) :
    ResInv (r.add_error c m nid) := by
  simp [ResInv, ValidationResult.add_error]

theorem resInv_add_warning (r : ValidationResult) (c m : String) (nid : Option String)
    (h : ResInv r) : ResInv (r.add_warning c m nid) := h

theorem resInv_check_empty (g : TaskGraph) (r : ValidationResult) (h : ResInv r) :
    ResInv (FlowchartValidator.check_empty_graph g r) := by
  simp only [FlowchartValidator.check_empty_graph]
  split
  · exact resInv_add_error _ _ _ _
  · exact h

theorem resInv_check_start (g : TaskGraph) (r : ValidationResult) (h : ResInv r) :
    ResInv (FlowchartValidator.check_start_nodes g r) := by
  simp only [FlowchartValidator.check_start_nodes]
  repeat' split
  all_goals first
    | exact h
    | exact resInv_add_error _ _ _ _
    | exact resInv_add_warning _ _ _ _ h

theorem resInv_check_end (g : TaskGraph) (r : ValidationResult) (h : ResInv r) :
    ResInv (FlowchartValidator.check_end_nodes g r) := by
  simp only [FlowchartValidator.check_end_nodes]
  repeat' split
  all_goals first
    | exact h
    | exact resInv_add_error _ _ _ _
    | exact resInv_add_warning _ _ _ _ h

theorem resInv_check_edges (g : TaskGraph) (r : ValidationResult) (h : ResInv r) :
    ResInv (FlowchartValidator.check_edge_references g r) := by
  simp only [FlowchartValidator.check_edge_references]
  refine foldl_inv ResInv _ _ _ h ?_
  intro t e he ht
  dsimp only
  repeat' split
  all_goals first
    | exact ht
    | exact resInv_add_error _ _ _ _

theorem resInv_check_decision (g : TaskGraph) (r : ValidationResult) (h : ResInv r) :
    ResInv (FlowchartValidator.check_decision_nodes g r) := by
  simp only [FlowchartValidator.check_decision_nodes]
  refine foldl_inv ResInv _ _ _ h ?_
  intro t n hn ht
  dsimp only
  repeat' split
  all_goals first
    | exact ht
    | exact resInv_add_error _ _ _ _
    | exact resInv_add_warning _ _ _ _ ht

theorem resInv_check_orphan (g : TaskGraph) (r : ValidationResult) (h : ResInv r) :
    ResInv (FlowchartValidator.check_orphan_nodes g r) := by
  simp only [FlowchartValidator.check_orphan_nodes]
  refine foldl_inv ResInv _ _ _ h ?_
  intro t n hn ht
  dsimp only
  repeat' split
  all_goals first
    | exact ht
    | exact resInv_add_error _ _ _ _

theorem resInv_check_connectivity (g : TaskGraph) (r : ValidationResult) (h : ResInv r) :
    ResInv (FlowchartValidator.check_connectivity g r) := by
  simp only [FlowchartValidator.check_connectivity]
  repeat' split
  all_goals first
    | exact h
    | exact resInv_add_warning _ _ _ _ h

theorem resInv_check_cycles (g : TaskGraph) (r : ValidationResult) (h : ResInv r) :
    ResInv (FlowchartValidator.check_cycles g r) := by
  simp only [FlowchartValidator.check_cycles]
  refine foldl_inv
    (fun (acc : ValidationResult × (String → Nat) × (String → Option String)) =>
      ResInv acc.1) _ _ _ h ?_
  intro t n hn ht
  obtain ⟨r1, c1, p1⟩ := t
  dsimp only at ht ⊢
  repeat' split
  all_goals first
    | exact ht
    | exact resInv_add_error _ _ _ _
    | exact resInv_add_warning _ _ _ _ ht

theorem resInv_check_names (g : TaskGraph) (r : ValidationResult) (h : ResInv r) :
    ResInv (FlowchartValidator.check_node_names g r) := by
  simp only [FlowchartValidator.check_node_names]
  refine foldl_inv ResInv _ _ _ h ?_
  intro t n hn ht
  dsimp only
  repeat' split
  all_goals first
    | exact ht
    | exact resInv_add_warning _ _ _ _ ht

/-- C8 (confirmed). The validator's result is valid exactly when its error
list is empty; add_warning never touches the valid flag or the error list,
and add_error always clears the valid flag. -/
theorem C8_valid_iff_no_errors (g : TaskGraph) :
    ((FlowchartValidator.validate g).valid = true ↔
      (FlowchartValidator.validate g).errors = []) ∧
    (∀ (r : ValidationResult) (c m : String) (nid : Option String),
      (r.add_warning c m nid).valid = r.valid ∧ (r.add_warning c m nid).errors = r.errors) ∧
    (∀ (r : ValidationResult) (c m : String) (nid : Option String),
      (r.add_error c m nid).valid = false) := by
  refine ⟨?_, fun r c m nid => ⟨rfl, rfl⟩, fun r c m nid => rfl⟩
  have h0 : ResInv {} := by simp [ResInv]
  show ResInv (FlowchartValidator.validate g)
  simp only [FlowchartValidator.validate, FlowchartValidator.validateS]
  split
  · exact resInv_check_empty _ _ h0
  · exact resInv_check_names _ _ (resInv_check_cycles _ _ (resInv_check_connectivity _ _
      (resInv_check_orphan _ _ (resInv_check_decision _ _ (resInv_check_edges _ _
        (resInv_check_end _ _ (resInv_check_start _ _ (resInv_check_empty _ _ h0))))))))

/-- C9 (confirmed). Validation never mutates the graph: the embedding
threads the graph through every check and returns it unchanged, mirroring
the absence of any graph-assigning statement in the validator's source. -/
theorem C9_validate_preserves_graph (g : TaskGraph) :
    (FlowchartValidator.validateS g).2 = g := by
  simp only [FlowchartValidator.validateS]
  split
  · rfl
  · rfl

theorem get_node_mem {g : TaskGraph} {i : String} {n : TaskNode}
    (h : g.get_node i = some n) : n ∈ g.nodes := by
  unfold TaskGraph.get_node at h
  exact List.mem_reverse.mp (List.mem_of_find?_eq_some h)

theorem get_node_id {g : TaskGraph} {i : String} {n : TaskNode}
    (h : g.get_node i = some n) : n.id = i := by
  unfold TaskGraph.get_node at h
  have := List.find?_some h
  simpa using this

theorem get_node_isSome_iff (g : TaskGraph) (i : String) :
    (g.get_node i).isSome = true ↔ i ∈ g.ids := by
  unfold TaskGraph.get_node TaskGraph.ids
  rw [List.find?_isSome]
  constructor
  · rintro ⟨n, hn, hp⟩
    rw [List.mem_reverse] at hn
    have hid : n.id = i := by simpa using hp
    exact hid ▸ List.mem_map_of_mem _ hn
  · intro hi
    obtain ⟨n, hn, hid⟩ := List.mem_map.mp hi
    exact ⟨n, List.mem_reverse.mpr hn, by simp [hid]⟩

theorem length_filterMap_eq_length_filter {α β : Type} (f : α → Option β) (l : List α) :
    (l.filterMap f).length = (l.filter (fun a => (f a).isSome)).length := by
  induction l with
  | nil => rfl
  | cons a t ih =>
    cases hfa : f a <;> simp [List.filterMap_cons, hfa, List.filter_cons, ih]

theorem addBranch_preserves (P : TaskNode → Prop) (bs : List (String × List TaskNode))
    (c : String) (t : TaskNode)
    (hb : ∀ p ∈ bs, ∀ n ∈ p.2, P n) (ht : P t) :
    ∀ p ∈ TaskGraph.addBranch bs c t, ∀ n ∈ p.2, P n := by
  induction bs with
  | nil =>
    intro p hp n hn
    simp only [TaskGraph.addBranch, List.mem_singleton] at hp
    subst hp
    simp only [List.mem_singleton] at hn
    exact hn ▸ ht
  | cons hd tl ih =>
    obtain ⟨c0, ts⟩ := hd
    intro p hp n hn
    simp only [TaskGraph.addBranch] at hp
    split at hp
    · rcases List.mem_cons.mp hp with h1 | h1
      · subst h1
        rcases List.mem_append.mp hn with h2 | h2
        · exact hb (c0, ts) (List.mem_cons_self _ _) n h2
        · simp only [List.mem_singleton] at h2
          exact h2 ▸ ht
      · exact hb p (List.mem_cons_of_mem _ h1) n hn
    · rcases List.mem_cons.mp hp with h1 | h1
      · subst h1
        exact hb (c0, ts) (List.mem_cons_self _ _) n hn
      · exact ih (fun q hq => hb q (List.mem_cons_of_mem _ hq)) p h1 n hn

/-- C10 (confirmed). get_successors and get_predecessors are total and
return only nodes of the graph, contributing exactly one node per edge
whose looked-up endpoint id names a node (edges with an absent endpoint
are skipped silently); get_decision_branches likewise only collects
existing target nodes. -/
theorem C10_lookup_safety (g : TaskGraph) (node_id : String) :
    (∀ n ∈ g.get_successors node_id, n ∈ g.nodes) ∧
    (∀ n ∈ g.get_predecessors node_id, n ∈ g.nodes) ∧
    (g.get_successors node_id).length =
      ((g.get_outgoing_edges node_id).filter (fun e => e.target_id ∈ g.ids)).length ∧
    (g.get_predecessors node_id).length =
      ((g.get_incoming_edges node_id).filter (fun e => e.source_id ∈ g.ids)).length ∧
    (∀ b ∈ g.get_decision_branches node_id, ∀ n ∈ b.2, n ∈ g.nodes) := by
  refine ⟨?_, ?_, ?_, ?_, ?_⟩
  · intro n hn
    obtain ⟨e, _, he⟩ := List.mem_filterMap.mp hn
    exact get_node_mem he
  · intro n hn
    obtain ⟨e, _, he⟩ := List.mem_filterMap.mp hn
    exact get_node_mem he
  · unfold TaskGraph.get_successors
    rw [length_filterMap_eq_length_filter]
    congr 1
    refine List.filter_congr ?_
    intro e _
    rw [Bool.eq_iff_iff]
    simp [get_node_isSome_iff]
  · unfold TaskGraph.get_predecessors
    rw [length_filterMap_eq_length_filter]
    congr 1
    refine List.filter_congr ?_
    intro e _
    rw [Bool.eq_iff_iff]
    simp [get_node_isSome_iff]
  · unfold TaskGraph.get_decision_branches
    refine foldl_inv
      (fun (bs : List (String × List TaskNode)) => ∀ b ∈ bs, ∀ n ∈ b.2, n ∈ g.nodes)
      _ _ _ (by simp) ?_
    intro bs e he hb
    dsimp only
    split
    · next t ht => exact addBranch_preserves _ bs _ t hb (get_node_mem ht)
    · exact hb

/-- C7 (amended). The plan's final acceptance criteria are the per-end-node
contributions of `specAcceptance` (process predecessors give
"Completed: name", human-review predecessors give "Human approved: name"),
and when no end node contributed anything the list is exactly
["All tasks completed successfully", "No critical errors or warnings"] —
the code's generic strings, which differ from the pair quoted by the
claim. -/
theorem C7_amended_acceptance_criteria (g : TaskGraph) (fn : Option String) (wt : String) :
    (PlanGenerator.generate g fn wt).final_acceptance =
      PlanGenerator.generate_acceptance_criteria g ∧
    PlanGenerator.generate_acceptance_criteria g =
      (if specAcceptance g = [] then
        ["All tasks completed successfully", "No critical errors or warnings"]
      else specAcceptance g) := by
  refine ⟨rfl, ?_⟩
  have hfun : ∀ p : TaskNode,
      (if p.node_type = NodeType.process then some ("Completed: " ++ p.name)
       else if p.node_type = NodeType.human_review then some ("Human approved: " ++ p.name)
       else none) =
      (match p.node_type with
       | NodeType.process => some ("Completed: " ++ p.name)
       | NodeType.human_review => some ("Human approved: " ++ p.name)
       | _ => (none : Option String)) := by
    intro p
    cases p.node_type <;> rfl
  simp only [PlanGenerator.generate_acceptance_criteria, specAcceptance, hfun]
  by_cases h : (g.get_end_nodes.flatMap fun e =>
      (g.get_predecessors e.id).filterMap fun p =>
        (match p.node_type with
         | NodeType.process => some ("Completed: " ++ p.name)
         | NodeType.human_review => some ("Human approved: " ++ p.name)
         | _ => (none : Option String))) = []
  · simp [h]
  · simp [h, List.isEmpty_iff]

theorem calcLevel_zero (g : TaskGraph) (n : String) (vis : List String)
    (lv : String → Option Nat) : TaskGraph.calcLevel g 0 n vis lv = (0, lv) := rfl

theorem calcLevel_succ_some (g : TaskGraph) (fuel : Nat) (n : String) (vis : List String)
    (lv : String → Option Nat) (k : Nat) (h : lv n = some k) :
    TaskGraph.calcLevel g (fuel + 1) n vis lv = (k, lv) := by
  simp [TaskGraph.calcLevel, h]

theorem calcLevel_succ_visited (g : TaskGraph) (fuel : Nat) (n : String) (vis : List String)
    (lv : String → Option Nat) (h : lv n = none) (h2 : n ∈ vis) :
    TaskGraph.calcLevel g (fuel + 1) n vis lv = (0, lv) := by
  simp [TaskGraph.calcLevel, h, h2]

theorem calcLevel_succ_nopreds (g : TaskGraph) (fuel : Nat) (n : String) (vis : List String)
    (lv : String → Option Nat) (h : lv n = none) (h2 : ¬ n ∈ vis)
    (h3 : (g.get_predecessors n).isEmpty = true) :
    TaskGraph.calcLevel g (fuel + 1) n vis lv = (0, upd lv n (some 0)) := by
  simp [TaskGraph.calcLevel, h, h2, h3]

theorem calcLevel_succ_preds (g : TaskGraph) (fuel : Nat) (n : String) (vis : List String)
    (lv : String → Option Nat) (h : lv n = none) (h2 : ¬ n ∈ vis)
    (h3 : ¬ (g.get_predecessors n).isEmpty = true) :
    TaskGraph.calcLevel g (fuel + 1) n vis lv =
      (((g.get_predecessors n).foldl (levelFoldStep g fuel (n :: vis)) (0, lv)).1 + 1,
       upd ((g.get_predecessors n).foldl (levelFoldStep g fuel (n :: vis)) (0, lv)).2 n
         (some (((g.get_predecessors n).foldl (levelFoldStep g fuel (n :: vis)) (0, lv)).1
           + 1))) := by
  simp only [TaskGraph.calcLevel, levelFoldStep, h, h2, h3]
  rfl

theorem calcFold_pres (g : TaskGraph) (fuel : Nat) (vis : List String)
    (Q : (String → Option Nat) → Prop)
    (hstep : ∀ n lv, Q lv → Q (TaskGraph.calcLevel g fuel n vis lv).2) :
    ∀ (ps : List TaskNode) (acc : Nat × (String → Option Nat)), Q acc.2 →
      Q (ps.foldl (levelFoldStep g fuel vis) acc).2 := by
  intro ps
  induction ps with
  | nil => intro acc h; exact h
  | cons p t ih => intro acc h; exact ih _ (hstep _ _ h)

theorem calcLevel_mono (g : TaskGraph) : ∀ (fuel : Nat) (n : String) (vis : List String)
    (lv : String → Option Nat),
    (∀ m k, lv m = some k → (TaskGraph.calcLevel g fuel n vis lv).2 m = some k) ∧
    (∀ m, m ∈ vis → lv m = none → (TaskGraph.calcLevel g fuel n vis lv).2 m = none) := by
  intro fuel
  induction fuel with
  | zero => exact fun n vis lv => ⟨fun m k h => h, fun m _ h => h⟩
  | succ fuel ih =>
    intro n vis lv
    cases hmem : lv n with
    | some k =>
      rw [calcLevel_succ_some g fuel n vis lv k hmem]
      exact ⟨fun m k h => h, fun m _ h => h⟩
    | none =>
      by_cases hvis : n ∈ vis
      · rw [calcLevel_succ_visited g fuel n vis lv hmem hvis]
        exact ⟨fun m k h => h, fun m _ h => h⟩
      · by_cases hpe : (g.get_predecessors n).isEmpty = true
        · rw [calcLevel_succ_nopreds g fuel n vis lv hmem hvis hpe]
          constructor
          · intro m k h
            have hmn : ¬ m = n := fun he => by rw [he, hmem] at h; cases h
            simp only [upd, hmn, if_false]
            exact h
          · intro m hm h
            have hmn : ¬ m = n := fun he => hvis (he ▸ hm)
            simp only [upd, hmn, if_false]
            exact h
        · rw [calcLevel_succ_preds g fuel n vis lv hmem hvis hpe]
          have hQ := calcFold_pres g fuel (n :: vis)
            (fun w => (∀ m k, lv m = some k → w m = some k) ∧
              (∀ m, m ∈ n :: vis → lv m = none → w m = none))
            (fun n' w hw =>
              ⟨fun m k h => (ih n' (n :: vis) w).1 m k (hw.1 m k h),
               fun m hm h => (ih n' (n :: vis) w).2 m hm (hw.2 m hm h)⟩)
            (g.get_predecessors n) (0, lv)
            ⟨fun m k h => h, fun m _ h => h⟩
          constructor
          · intro m k h
            have hmn : ¬ m = n := fun he => by rw [he, hmem] at h; cases h
            simp only [upd, hmn, if_false]
            exact hQ.1 m k h
          · intro m hm h
            have hmn : ¬ m = n := fun he => hvis (he ▸ hm)
            simp only [upd, hmn, if_false]
            exact hQ.2 m (List.mem_cons_of_mem _ hm) h

theorem selfFold (g : TaskGraph) (fuel : Nat) (xid : String) (vis : List String)
    (hvis : xid ∈ vis) (lv : String → Option Nat) (hnone : lv xid = none) :
    ∀ ps : List TaskNode, (∀ p ∈ ps, p.id = xid) →
      ps.foldl (levelFoldStep g fuel vis) (0, lv) = (0, lv) := by
  intro ps
  induction ps with
  | nil => intro _; rfl
  | cons p t ih =>
    intro hall
    have hp := hall p (List.mem_cons_self _ _)
    have hstep : levelFoldStep g fuel vis (0, lv) p = (0, lv) := by
      unfold levelFoldStep
      dsimp only
      rw [hp]
      cases fuel with
      | zero => rfl
      | succ f =>
        rw [calcLevel_succ_visited g f xid vis lv hnone hvis]
        rfl
    rw [List.foldl_cons, hstep]
    exact ih (fun q hq => hall q (List.mem_cons_of_mem _ hq))

theorem calcLevel_selfloop_store (g : TaskGraph) (xid : String)
    (hpne : ¬ (g.get_predecessors xid).isEmpty = true)
    (hall : ∀ p ∈ g.get_predecessors xid, p.id = xid) (fuel : Nat) (vis : List String)
    (lv : String → Option Nat) (hnone : lv xid = none) (hvis : ¬ xid ∈ vis) :
    TaskGraph.calcLevel g (fuel + 1) xid vis lv = (1, upd lv xid (some 1)) := by
  rw [calcLevel_succ_preds g fuel xid vis lv hnone hvis hpne]
  rw [selfFold g fuel xid (xid :: vis) (List.mem_cons_self _ _) lv hnone _ hall]

theorem calcLevel_x_inv (g : TaskGraph) (xid : String)
    (hpne : ¬ (g.get_predecessors xid).isEmpty = true)
    (hall : ∀ p ∈ g.get_predecessors xid, p.id = xid) :
    ∀ (fuel : Nat) (n : String) (vis : List String) (lv : String → Option Nat),
      (lv xid = none ∨ lv xid = some 1) →
      ((TaskGraph.calcLevel g fuel n vis lv).2 xid = none ∨
        (TaskGraph.calcLevel g fuel n vis lv).2 xid = some 1) := by
  intro fuel
  induction fuel with
  | zero => intro n vis lv h; exact h
  | succ fuel ih =>
    intro n vis lv h
    cases hmem : lv n with
    | some k => rw [calcLevel_succ_some g fuel n vis lv k hmem]; exact h
    | none =>
      by_cases hvis : n ∈ vis
      · rw [calcLevel_succ_visited g fuel n vis lv hmem hvis]; exact h
      · by_cases hxn : n = xid
        · subst hxn
          rw [calcLevel_selfloop_store g n hpne hall fuel vis lv hmem hvis]
          right
          simp [upd]
        · have hne : ¬ xid = n := fun he => hxn he.symm
          by_cases hpe : (g.get_predecessors n).isEmpty = true
          · rw [calcLevel_succ_nopreds g fuel n vis lv hmem hvis hpe]
            simpa only [upd, hne, if_false] using h
          · rw [calcLevel_succ_preds g fuel n vis lv hmem hvis hpe]
            have hQ := calcFold_pres g fuel (n :: vis)
              (fun w => w xid = none ∨ w xid = some 1)
              (fun n' w hw => ih n' (n :: vis) w hw) (g.get_predecessors n) (0, lv) h
            dsimp only
            simpa only [upd, hne, if_false] using hQ

theorem computeFold_pres_some (g : TaskGraph) :
    ∀ (l : List TaskNode) (lv : String → Option Nat) (m : String) (k : Nat),
      lv m = some k →
      (l.foldl (fun levels n =>
        (TaskGraph.calcLevel g (g.nodes.length + 1) n.id [] levels).2) lv) m = some k := by
  intro l
  induction l with
  | nil => intro lv m k h; exact h
  | cons n t ih =>
    intro lv m k h
    exact ih _ m k ((calcLevel_mono g _ n.id [] lv).1 m k h)

theorem computeFold_x (g : TaskGraph) (x : TaskNode)
    (hpne : ¬ (g.get_predecessors x.id).isEmpty = true)
    (hall : ∀ p ∈ g.get_predecessors x.id, p.id = x.id) :
    ∀ (l : List TaskNode) (lv : String → Option Nat), x ∈ l →
      (lv x.id = none ∨ lv x.id = some 1) →
      (l.foldl (fun levels n =>
        (TaskGraph.calcLevel g (g.nodes.length + 1) n.id [] levels).2) lv) x.id = some 1 := by
  intro l
  induction l with
  | nil => intro lv hm _; cases hm
  | cons n t ih =>
    intro lv hm hinv
    rcases List.mem_cons.mp hm with he | ht
    · subst he
      rw [List.foldl_cons]
      cases hinv with
      | inl hnone =>
        refine computeFold_pres_some g t _ x.id 1 ?_
        rw [calcLevel_selfloop_store g x.id hpne hall g.nodes.length [] lv hnone
          (by simp)]
        simp [upd]
      | inr hsome =>
        exact computeFold_pres_some g t _ x.id 1
          ((calcLevel_mono g _ x.id [] lv).1 x.id 1 hsome)
    · rw [List.foldl_cons]
      exact ih _ ht (calcLevel_x_inv g x.id hpne hall _ n.id [] lv hinv)

theorem preds_selfloop (g : TaskGraph) (x : TaskNode) (hx : x ∈ g.nodes)
    (hself : ∀ e ∈ g.edges, e.target_id = x.id → e.source_id = x.id)
    (hinc : ∃ e ∈ g.edges, e.target_id = x.id) :
    ¬ (g.get_predecessors x.id).isEmpty = true ∧
    ∀ p ∈ g.get_predecessors x.id, p.id = x.id := by
  constructor
  · obtain ⟨e, he, het⟩ := hinc
    have hes := hself e he het
    have hin : e ∈ g.get_incoming_edges x.id := by
      unfold TaskGraph.get_incoming_edges
      exact List.mem_filter.mpr ⟨he, by simp [het]⟩
    have hsome : (g.get_node e.source_id).isSome = true := by
      rw [hes]
      exact (get_node_isSome_iff g x.id).mpr (List.mem_map_of_mem _ hx)
    obtain ⟨p, hp⟩ := Option.isSome_iff_exists.mp hsome
    have : p ∈ g.get_predecessors x.id := by
      unfold TaskGraph.get_predecessors
      exact List.mem_filterMap.mpr ⟨e, hin, hp⟩
    intro hempty
    rw [List.isEmpty_iff] at hempty
    rw [hempty] at this
    cases this
  · intro p hp
    unfold TaskGraph.get_predecessors at hp
    obtain ⟨e, he, hnode⟩ := List.mem_filterMap.mp hp
    unfold TaskGraph.get_incoming_edges at he
    obtain ⟨he', het⟩ := List.mem_filter.mp he
    have het' : e.target_id = x.id := by simpa using het
    have hes := hself e he' het'
    rw [hes] at hnode
    exact get_node_id hnode

/-- C5 (amended). The level recursion terminates on every graph (the
embedding's fuel provably dominates the recursion depth), and a node whose
incoming edges are all self-loops (and has at least one) is assigned level
1 — the cycle break returns 0 for the repeated predecessor and the caller
adds 1 — and is placed in the group of the level-1 nodes. -/
theorem C5_amended_self_loop_level (g : TaskGraph) (x : TaskNode)
    (hx : x ∈ g.nodes)
    (hself : ∀ e ∈ g.edges, e.target_id = x.id → e.source_id = x.id)
    (hinc : ∃ e ∈ g.edges, e.target_id = x.id) :
    TaskGraph.levelOf g x.id = 1 ∧
    ∃ grp ∈ g.get_parallel_groups, x ∈ grp ∧
      ∀ y ∈ grp, TaskGraph.levelOf g y.id = 1 := by
  obtain ⟨hpne, hall⟩ := preds_selfloop g x hx hself hinc
  have hstore : g.computeLevels x.id = some 1 := by
    unfold TaskGraph.computeLevels
    exact computeFold_x g x hpne hall g.nodes _ hx (Or.inl rfl)
  have hlv : TaskGraph.levelOf g x.id = 1 := by
    unfold TaskGraph.levelOf
    rw [hstore]
    rfl
  refine ⟨hlv, ?_⟩
  simp only [TaskGraph.get_parallel_groups]
  refine ⟨g.nodes.filter (fun n => TaskGraph.levelOf g n.id = 1), ?_, ?_, ?_⟩
  · refine List.mem_map.mpr ⟨1, ?_, rfl⟩
    rw [List.mem_insertionSort]
    refine List.mem_dedup.mpr ?_
    exact List.mem_map.mpr ⟨x, hx, hlv⟩
  · exact List.mem_filter.mpr ⟨hx, by simp [hlv]⟩
  · intro y hy
    have := (List.mem_filter.mp hy).2
    simpa using this

/-- C5 witness: the amended claim at the concrete graph `gC5` and its
self-loop node `nLoopy`. -/
theorem C5_amended_witness :
    TaskGraph.levelOf gC5 nLoopy.id = 1 ∧
    ∃ grp ∈ gC5.get_parallel_groups, nLoopy ∈ grp ∧
      ∀ y ∈ grp, TaskGraph.levelOf gC5 y.id = 1 :=
  C5_amended_self_loop_level gC5 nLoopy (by decide) (by decide) (by decide)

theorem countUnresolved_nil (g : TaskGraph) (i : String) :
    countUnresolved g [] i = (g.get_incoming_edges i).length := by
  unfold countUnresolved
  simp

theorem sources_placed_of_count_zero (g : TaskGraph) (placed : List TaskNode) (i : String)
    (h : countUnresolved g placed i = 0) :
    ∀ e ∈ g.edges, e.target_id = i → e.source_id ∈ placed.map (·.id) := by
  intro e he het
  unfold countUnresolved at h
  rw [List.length_eq_zero] at h
  have hin : e ∈ g.get_incoming_edges i := by
    unfold TaskGraph.get_incoming_edges
    exact List.mem_filter.mpr ⟨he, by simp [het]⟩
  by_contra hns
  have hmem : e ∈ (g.get_incoming_edges i).filter
      (fun e => ¬ placed.any (fun r => r.id = e.source_id)) := by
    refine List.mem_filter.mpr ⟨hin, ?_⟩
    simp only [decide_eq_true_eq, List.any_eq_true, not_exists]
    intro x hx
    exact hns (List.mem_map.mpr ⟨x, hx.1, hx.2⟩)
  rw [h] at hmem
  cases hmem

theorem count_split (g : TaskGraph) (placed : List TaskNode) (n : TaskNode) (i : String)
    (hn : ¬ n.id ∈ placed.map (·.id)) :
    countUnresolved g placed i =
      countUnresolved g (placed ++ [n]) i +
        (g.edges.filter (fun e => e.target_id = i ∧ e.source_id = n.id)).length := by
  unfold countUnresolved TaskGraph.get_incoming_edges
  have hnp : (placed.any fun r => r.id = n.id) = false := by
    rw [List.any_eq_false]
    intro r hr
    simp only [decide_eq_true_eq]
    intro hrid
    exact hn (List.mem_map.mpr ⟨r, hr, hrid⟩)
  induction g.edges with
  | nil => rfl
  | cons e t ih =>
    by_cases htgt : e.target_id = i
    · by_cases hsrc : e.source_id = n.id
      · have hPold : (decide ¬ ((placed.any fun r => decide (r.id = e.source_id)) = true))
            = true := by simp [hsrc, hnp]
        have hPnew : (decide ¬ (((placed ++ [n]).any fun r => decide (r.id = e.source_id))
            = true)) = false := by simp [hsrc, List.any_append, hnp]
        have hT : (decide (e.target_id = i)) = true := by simp [htgt]
        have hR : (decide (e.target_id = i ∧ e.source_id = n.id)) = true := by
          simp [htgt, hsrc]
        simp only [List.filter_cons, hT, hPold, hPnew, hR, if_true, Bool.false_eq_true,
          if_false, List.length_cons]
        omega
      · by_cases hpl : (placed.any fun r => r.id = e.source_id) = true
        · have hPold : (decide ¬ ((placed.any fun r => decide (r.id = e.source_id)) = true))
              = false := by simp [hpl]
          have hPnew : (decide ¬ (((placed ++ [n]).any fun r => decide (r.id = e.source_id))
              = true)) = false := by simp [List.any_append, hpl]
          have hT : (decide (e.target_id = i)) = true := by simp [htgt]
          have hR : (decide (e.target_id = i ∧ e.source_id = n.id)) = false := by
            simp [hsrc]
          simp only [List.filter_cons, hT, hPold, hPnew, hR, if_true, Bool.false_eq_true,
            if_false]
          exact ih
        · have hpl' : (placed.any fun r => r.id = e.source_id) = false := by
            simpa using hpl
          have hsrc' : ¬ n.id = e.source_id := fun hh => hsrc hh.symm
          have hPold : (decide ¬ ((placed.any fun r => decide (r.id = e.source_id)) = true))
              = true := by simp [hpl']
          have hPnew : (decide ¬ (((placed ++ [n]).any fun r => decide (r.id = e.source_id))
              = true)) = true := by simp [List.any_append, hpl', hsrc']
          have hT : (decide (e.target_id = i)) = true := by simp [htgt]
          have hR : (decide (e.target_id = i ∧ e.source_id = n.id)) = false := by
            simp [hsrc]
          simp only [List.filter_cons, hT, hPold, hPnew, hR, if_true, Bool.false_eq_true,
            if_false, List.length_cons]
          omega
    · have hT : (decide (e.target_id = i)) = false := by simp [htgt]
      have hR : (decide (e.target_id = i ∧ e.source_id = n.id)) = false := by
        simp [htgt]
      simp only [List.filter_cons, hT, hR, Bool.false_eq_true, if_false]
      exact ih

theorem occIds_cons (s : TaskNode) (ss : List TaskNode) (i : String) :
    occIds (s :: ss) i = (if s.id = i then 1 else 0) + occIds ss i := by
  unfold occIds
  by_cases h : s.id = i
  · simp [List.filter_cons, h, Nat.add_comm]
  · simp [List.filter_cons, h]

theorem kahnProcess_cons (deg : String → Int) (s : TaskNode) (ss q : List TaskNode) :
    TaskGraph.kahnProcess (s :: ss) deg q =
      (if deg s.id - 1 = 0 then
        TaskGraph.kahnProcess ss (upd deg s.id (deg s.id - 1)) (q ++ [s])
      else TaskGraph.kahnProcess ss (upd deg s.id (deg s.id - 1)) q) := by
  simp only [TaskGraph.kahnProcess]
  have h : upd deg s.id (deg s.id - 1) s.id = deg s.id - 1 := by simp [upd]
  rw [h]

theorem kahnProcess_mid (g : TaskGraph) (S : String → Prop)
    (hS : ∀ x, S x → ∃ p, S p ∧ ∃ e ∈ g.edges, e.source_id = p ∧ e.target_id = x)
    (n : TaskNode) (result' : List TaskNode)
    (hKey : ∀ i, (∃ e ∈ g.edges, e.source_id = n.id ∧ e.target_id = i) →
      ¬ i ∈ result'.map (·.id))
    (hresS : ∀ x, S x → ¬ x ∈ result'.map (·.id)) :
    ∀ (ss : List TaskNode) (deg : String → Int) (q : List TaskNode),
      (∀ s ∈ ss, s ∈ g.nodes ∧ ∃ e ∈ g.edges, e.source_id = n.id ∧ e.target_id = s.id) →
      (∀ i, i ∈ g.ids → deg i = (countUnresolved g result' i : Int) + (occIds ss i : Int)) →
      (∀ a ∈ q, a ∈ g.nodes ∧ countUnresolved g result' a.id = 0 ∧ occIds ss a.id = 0) →
      (((result' ++ q).map (·.id)).Nodup) →
      (∀ m ∈ g.nodes, m.id ∈ result'.map (·.id) ∨ m.id ∈ q.map (·.id) ∨
        0 < countUnresolved g result' m.id + occIds ss m.id) →
      (∀ x, S x → ¬ x ∈ q.map (·.id)) →
      (∀ i, i ∈ g.ids → (TaskGraph.kahnProcess ss deg q).1 i =
          (countUnresolved g result' i : Int)) ∧
      (∀ a ∈ (TaskGraph.kahnProcess ss deg q).2, a ∈ g.nodes ∧
          countUnresolved g result' a.id = 0) ∧
      (((result' ++ (TaskGraph.kahnProcess ss deg q).2).map (·.id)).Nodup) ∧
      (∀ m ∈ g.nodes, m.id ∈ result'.map (·.id) ∨
          m.id ∈ (TaskGraph.kahnProcess ss deg q).2.map (·.id) ∨
          0 < countUnresolved g result' m.id) ∧
      (∀ x, S x → ¬ x ∈ (TaskGraph.kahnProcess ss deg q).2.map (·.id)) := by
  intro ss
  induction ss with
  | nil =>
    intro deg q hM1 hM2 hM4 hM5 hM6 hM7
    refine ⟨?_, ?_, hM5, ?_, hM7⟩
    · intro i hi
      have := hM2 i hi
      simpa [occIds] using this
    · intro a ha
      exact ⟨(hM4 a ha).1, (hM4 a ha).2.1⟩
    · intro m hm
      rcases hM6 m hm with h1 | h1 | h1
      · exact Or.inl h1
      · exact Or.inr (Or.inl h1)
      · refine Or.inr (Or.inr ?_)
        simpa [occIds] using h1
  | cons s ss' ih =>
    intro deg q hM1 hM2 hM4 hM5 hM6 hM7
    have hs := hM1 s (List.mem_cons_self _ _)
    have hsid : s.id ∈ g.ids := List.mem_map_of_mem _ hs.1
    have hdegs : deg s.id =
        (countUnresolved g result' s.id : Int) + (occIds ss' s.id : Int) + 1 := by
      have := hM2 s.id hsid
      rw [occIds_cons] at this
      simp only [if_pos rfl] at this
      push_cast at this
      omega
    rw [kahnProcess_cons]
    by_cases hz : deg s.id - 1 = 0
    · -- append case: the running in-degree of s.id hit zero
      rw [if_pos hz]
      have hcz : countUnresolved g result' s.id = 0 ∧ occIds ss' s.id = 0 := by
        rw [hdegs] at hz
        constructor <;> omega
      have hnotres : ¬ s.id ∈ result'.map (·.id) := hKey s.id hs.2
      have hnotq : ¬ s.id ∈ q.map (·.id) := by
        intro hmem
        obtain ⟨a, ha, haid⟩ := List.mem_map.mp hmem
        have := (hM4 a ha).2.2
        rw [occIds_cons, haid] at this
        simp at this
      refine ih (upd deg s.id (deg s.id - 1)) (q ++ [s]) ?_ ?_ ?_ ?_ ?_ ?_
      · intro t ht
        exact hM1 t (List.mem_cons_of_mem _ ht)
      · intro i hi
        by_cases his : i = s.id
        · subst his
          simp only [upd, if_pos rfl]
          rw [hz, hcz.1, hcz.2]
          simp
        · have his' : ¬ i = s.id := his
          simp only [upd, his', if_false]
          have := hM2 i hi
          rw [occIds_cons] at this
          have hsi : ¬ s.id = i := fun hh => his hh.symm
          simp only [hsi, if_false] at this
          simpa using this
      · intro a ha
        rcases List.mem_append.mp ha with ha1 | ha1
        · have h4 := hM4 a ha1
          refine ⟨h4.1, h4.2.1, ?_⟩
          have := h4.2.2
          rw [occIds_cons] at this
          omega
        · rw [List.mem_singleton] at ha1
          subst ha1
          exact ⟨hs.1, hcz.1, hcz.2⟩
      · have hnotrq : ¬ s.id ∈ (result' ++ q).map (·.id) := by
          rw [List.map_append]
          intro h
          rcases List.mem_append.mp h with h | h
          · exact hnotres h
          · exact hnotq h
        rw [← List.append_assoc, List.map_append]
        simp only [List.map_cons, List.map_nil]
        refine List.Nodup.append hM5 (List.nodup_singleton _) ?_
        intro a ha hb
        rw [List.mem_singleton] at hb
        subst hb
        exact hnotrq ha
      · intro m hm
        rcases hM6 m hm with h1 | h1 | h1
        · exact Or.inl h1
        · refine Or.inr (Or.inl ?_)
          rw [List.map_append]
          exact List.mem_append.mpr (Or.inl h1)
        · by_cases hms : m.id = s.id
          · refine Or.inr (Or.inl ?_)
            rw [List.map_append, hms]
            simp
          · refine Or.inr (Or.inr ?_)
            rw [occIds_cons] at h1
            have : ¬ s.id = m.id := fun hh => hms hh.symm
            simp only [this, if_false] at h1
            omega
      · intro x hx
        rw [List.map_append]
        intro hmem
        rcases List.mem_append.mp hmem with h1 | h1
        · exact hM7 x hx h1
        · simp only [List.map_cons, List.map_nil, List.mem_singleton] at h1
          subst h1
          obtain ⟨p, hp, e, he, hesrc, hetgt⟩ := hS s.id hx
          have := sources_placed_of_count_zero g result' s.id hcz.1 e he hetgt
          rw [hesrc] at this
          exact hresS p hp this
    · -- no append: s.id still has pending in-degree
      rw [if_neg hz]
      have hpos : 0 < countUnresolved g result' s.id + occIds ss' s.id := by
        rw [hdegs] at hz
        omega
      refine ih (upd deg s.id (deg s.id - 1)) q ?_ ?_ ?_ hM5 ?_ hM7
      · intro t ht
        exact hM1 t (List.mem_cons_of_mem _ ht)
      · intro i hi
        by_cases his : i = s.id
        · subst his
          simp only [upd, if_pos rfl]
          rw [hdegs]
          push_cast
          omega
        · have his' : ¬ i = s.id := his
          simp only [upd, his', if_false]
          have := hM2 i hi
          rw [occIds_cons] at this
          have hsi : ¬ s.id = i := fun hh => his hh.symm
          simp only [hsi, if_false] at this
          simpa using this
      · intro a ha
        have h4 := hM4 a ha
        refine ⟨h4.1, h4.2.1, ?_⟩
        have := h4.2.2
        rw [occIds_cons] at this
        omega
      · intro m hm
        rcases hM6 m hm with h1 | h1 | h1
        · exact Or.inl h1
        · exact Or.inr (Or.inl h1)
        · by_cases hms : m.id = s.id
          · refine Or.inr (Or.inr ?_)
            rw [hms]
            exact hpos
          · refine Or.inr (Or.inr ?_)
            rw [occIds_cons] at h1
            have : ¬ s.id = m.id := fun hh => hms hh.symm
            simp only [this, if_false] at h1
            omega

theorem mem_get_successors {g : TaskGraph} {nid : String} {s : TaskNode}
    (h : s ∈ g.get_successors nid) :
    s ∈ g.nodes ∧ ∃ e ∈ g.edges, e.source_id = nid ∧ e.target_id = s.id := by
  unfold TaskGraph.get_successors TaskGraph.get_outgoing_edges at h
  obtain ⟨e, he, hn⟩ := List.mem_filterMap.mp h
  obtain ⟨he1, he2⟩ := List.mem_filter.mp he
  refine ⟨get_node_mem hn, e, he1, by simpa using he2, (get_node_id hn).symm⟩

theorem occ_succs (g : TaskGraph) (nid i : String) (hi : i ∈ g.ids) :
    occIds (g.get_successors nid) i =
      (g.edges.filter (fun e => e.target_id = i ∧ e.source_id = nid)).length := by
  unfold TaskGraph.get_successors TaskGraph.get_outgoing_edges
  induction g.edges with
  | nil => rfl
  | cons e t ih =>
    by_cases hs : e.source_id = nid
    · have hSd : (decide (e.source_id = nid)) = true := by simp [hs]
      by_cases ht : e.target_id = i
      · have hsome : (g.get_node e.target_id).isSome = true := by
          rw [ht]
          exact (get_node_isSome_iff g i).mpr hi
        obtain ⟨n, hn⟩ := Option.isSome_iff_exists.mp hsome
        have hnid : n.id = i := by rw [get_node_id hn, ht]
        have hR : (decide (e.target_id = i ∧ e.source_id = nid)) = true := by
          simp [ht, hs]
        simp only [List.filter_cons, hSd, if_true, hR, List.filterMap_cons, hn,
          List.length_cons]
        rw [occIds_cons, ih]
        rw [if_pos hnid]
        omega
      · have hR : (decide (e.target_id = i ∧ e.source_id = nid)) = false := by
          simp [ht]
        simp only [List.filter_cons, hSd, if_true, hR, Bool.false_eq_true, if_false]
        cases hn : g.get_node e.target_id with
        | none =>
          simp only [List.filterMap_cons, hn]
          exact ih
        | some n =>
          have hnid : ¬ n.id = i := by rw [get_node_id hn]; exact ht
          simp only [List.filterMap_cons, hn]
          rw [occIds_cons, ih, if_neg hnid]
          omega
    · have hSd : (decide (e.source_id = nid)) = false := by simp [hs]
      have hR : (decide (e.target_id = i ∧ e.source_id = nid)) = false := by
        simp [hs]
      simp only [List.filter_cons, hSd, hR, Bool.false_eq_true, if_false]
      exact ih

theorem initDeg_aux (g : TaskGraph) (i : String) (hi : i ∈ g.ids) :
    ∀ (es : List TaskEdge) (d : String → Int),
      (es.foldl (fun d e =>
          if e.target_id ∈ g.ids then upd d e.target_id (d e.target_id + 1) else d) d) i
        = d i + (es.filter (fun e => e.target_id = i)).length := by
  intro es
  induction es with
  | nil => intro d; simp
  | cons e t ih =>
    intro d
    simp only [List.foldl_cons, List.filter_cons]
    by_cases ht : e.target_id = i
    · have hmem : e.target_id ∈ g.ids := ht ▸ hi
      rw [if_pos hmem, ih]
      have h1 : upd d e.target_id (d e.target_id + 1) i = d i + 1 := by
        rw [← ht]
        simp [upd]
      rw [h1]
      simp only [ht, decide_True, if_true, List.length_cons]
      push_cast
      ring
    · have hne : ¬ i = e.target_id := fun hh => ht hh.symm
      simp only [ht, decide_False, Bool.false_eq_true, if_false]
      by_cases hmem : e.target_id ∈ g.ids
      · rw [if_pos hmem, ih]
        simp [upd, hne]
      · rw [if_neg hmem, ih]

theorem initDeg_count (g : TaskGraph) (i : String) (hi : i ∈ g.ids) :
    g.initDeg i = (countUnresolved g [] i : Int) := by
  unfold TaskGraph.initDeg
  rw [initDeg_aux g i hi, countUnresolved_nil]
  unfold TaskGraph.get_incoming_edges
  simp

theorem count_pos_elim (g : TaskGraph) (placed : List TaskNode) (i : String)
    (h : 0 < countUnresolved g placed i) :
    ∃ e ∈ g.edges, e.target_id = i ∧ ¬ e.source_id ∈ placed.map (·.id) := by
  unfold countUnresolved TaskGraph.get_incoming_edges at h
  rw [List.length_pos] at h
  obtain ⟨e, he⟩ := List.exists_mem_of_ne_nil _ h
  obtain ⟨he1, he2⟩ := List.mem_filter.mp he
  obtain ⟨he3, he4⟩ := List.mem_filter.mp he1
  refine ⟨e, he3, by simpa using he4, ?_⟩
  intro hmem
  obtain ⟨r, hr, hrid⟩ := List.mem_map.mp hmem
  simp only [decide_eq_true_eq, List.any_eq_true, not_exists] at he2
  exact he2 r ⟨hr, hrid⟩

theorem kahn_init (g : TaskGraph) (S : String → Prop)
    (hS : ∀ x, S x → ∃ p, S p ∧ ∃ e ∈ g.edges, e.source_id = p ∧ e.target_id = x)
    (hids : g.ids.Nodup) :
    KahnInv g S [] g.initQueue g.initDeg := by
  have hq_mem : ∀ n ∈ g.initQueue, n ∈ g.nodes ∧ g.initDeg n.id = 0 := by
    intro n hn
    have := List.mem_filter.mp hn
    exact ⟨this.1, by simpa using this.2⟩
  have hcnt : ∀ n ∈ g.initQueue, countUnresolved g [] n.id = 0 := by
    intro n hn
    have h1 := (hq_mem n hn).2
    have h2 : n.id ∈ g.ids := List.mem_map_of_mem _ (hq_mem n hn).1
    have := initDeg_count g n.id h2
    rw [h1] at this
    omega
  refine ⟨?_, ?_, ?_, ?_, ?_, ?_, ?_, ?_, ?_, ?_⟩
  · simp only [List.nil_append]
    unfold TaskGraph.initQueue
    exact ((List.filter_sublist _).map _).nodup hids
  · intro n hn; cases hn
  · intro n hn; exact (hq_mem n hn).1
  · intro i hi
    exact initDeg_count g i hi
  · exact hcnt
  · intro m hm
    by_cases hz : g.initDeg m.id = 0
    · refine Or.inr (Or.inl ?_)
      refine List.mem_map_of_mem _ ?_
      unfold TaskGraph.initQueue
      exact List.mem_filter.mpr ⟨hm, by simpa using hz⟩
    · refine Or.inr (Or.inr ?_)
      have h2 : m.id ∈ g.ids := List.mem_map_of_mem _ hm
      have := initDeg_count g m.id h2
      omega
  · intro i hi; cases hi
  · intro e he j hj; cases hj
  · intro j hj; cases hj
  · intro x hx
    refine ⟨by simp, ?_⟩
    intro hmem
    obtain ⟨a, ha, haid⟩ := List.mem_map.mp hmem
    have h1 := (hq_mem a ha).2
    have h2 : a.id ∈ g.ids := List.mem_map_of_mem _ (hq_mem a ha).1
    have h3 := initDeg_count g a.id h2
    rw [h1] at h3
    have h4 : countUnresolved g [] a.id = 0 := by omega
    rw [countUnresolved_nil] at h4
    obtain ⟨p, hSp, e, he, hsrc, htgt⟩ := hS x hx
    have he2 : e ∈ g.get_incoming_edges a.id := by
      unfold TaskGraph.get_incoming_edges
      refine List.mem_filter.mpr ⟨he, ?_⟩
      simp [htgt, haid]
    rw [List.length_eq_zero] at h4
    rw [h4] at he2
    cases he2

theorem kahnStep (g : TaskGraph) (S : String → Prop)
    (hS : ∀ x, S x → ∃ p, S p ∧ ∃ e ∈ g.edges, e.source_id = p ∧ e.target_id = x)
    (result queue : List TaskNode) (deg : String → Int)
    (hinv : KahnInv g S result queue deg)
    (n : TaskNode) (rest : List TaskNode)
    (hsort : List.insertionSort TaskGraph.nodeLe queue = n :: rest) :
    KahnInv g S (result ++ [n])
      (TaskGraph.kahnProcess (g.get_successors n.id) deg rest).2
      (TaskGraph.kahnProcess (g.get_successors n.id) deg rest).1 := by
  obtain ⟨hNodup, hResNodes, hQNodes, hDeg, hQZero, hComp, hResolved, hP4, hP5, hSguard⟩ :=
    hinv
  have hperm : (n :: rest).Perm queue := hsort ▸ List.perm_insertionSort TaskGraph.nodeLe queue
  have hsorted : List.Sorted TaskGraph.nodeLe (n :: rest) :=
    hsort ▸ List.sorted_insertionSort TaskGraph.nodeLe queue
  have hnq : n ∈ queue := hperm.subset (List.mem_cons_self _ _)
  have hrestq : ∀ a ∈ rest, a ∈ queue := fun a ha =>
    hperm.subset (List.mem_cons_of_mem _ ha)
  have hnNodes : n ∈ g.nodes := hQNodes n hnq
  have hnids : n.id ∈ g.ids := List.mem_map_of_mem _ hnNodes
  have hcount_n : countUnresolved g result n.id = 0 := hQZero n hnq
  have hNodup' : ((result ++ n :: rest).map (·.id)).Nodup :=
    (((hperm.append_left result).map (·.id)).nodup_iff).mpr hNodup
  have hnnotres : ¬ n.id ∈ result.map (·.id) := by
    intro hmem
    rw [List.map_append] at hNodup'
    have hdisj := (List.nodup_append.mp hNodup').2.2
    exact hdisj hmem (by simp)
  have hcsplit : ∀ i, countUnresolved g result i =
      countUnresolved g (result ++ [n]) i +
        (g.edges.filter (fun e => e.target_id = i ∧ e.source_id = n.id)).length :=
    fun i => count_split g result n i hnnotres
  have hKey : ∀ i, (∃ e ∈ g.edges, e.source_id = n.id ∧ e.target_id = i) →
      ¬ i ∈ (result ++ [n]).map (·.id) := by
    rintro i ⟨e, he, hsrc, htgt⟩ hmem
    rw [List.map_append] at hmem
    rcases List.mem_append.mp hmem with h1 | h1
    · have h0 := hResolved i h1
      have := sources_placed_of_count_zero g result i h0 e he htgt
      rw [hsrc] at this
      exact hnnotres this
    · simp only [List.map_cons, List.map_nil, List.mem_singleton] at h1
      subst h1
      have := sources_placed_of_count_zero g result n.id hcount_n e he htgt
      rw [hsrc] at this
      exact hnnotres this
  have hresS' : ∀ x, S x → ¬ x ∈ (result ++ [n]).map (·.id) := by
    intro x hx hmem
    rw [List.map_append] at hmem
    rcases List.mem_append.mp hmem with h1 | h1
    · exact (hSguard x hx).1 h1
    · simp only [List.map_cons, List.map_nil, List.mem_singleton] at h1
      subst h1
      exact (hSguard n.id hx).2 (List.mem_map_of_mem _ hnq)
  have hmid := kahnProcess_mid g S hS n (result ++ [n]) hKey hresS'
    (g.get_successors n.id) deg rest
    (fun s hs => mem_get_successors hs)
    (by
      intro i hi
      have h1 := hDeg i hi
      have h2 := hcsplit i
      have h3 := occ_succs g n.id i hi
      rw [h1, h2, h3]
      push_cast
      ring)
    (by
      intro a ha
      have haq := hrestq a ha
      have haN := hQNodes a haq
      have haids : a.id ∈ g.ids := List.mem_map_of_mem _ haN
      have h0 := hQZero a haq
      have h2 := hcsplit a.id
      have h3 := occ_succs g n.id a.id haids
      refine ⟨haN, by omega, by omega⟩)
    (by
      rw [List.append_assoc, List.singleton_append]
      exact hNodup')
    (by
      intro m hm
      rcases hComp m hm with h1 | h1 | h1
      · refine Or.inl ?_
        rw [List.map_append]
        exact List.mem_append.mpr (Or.inl h1)
      · have h2 : m.id ∈ (n :: rest).map (·.id) := ((hperm.map _).mem_iff).mpr h1
        simp only [List.map_cons, List.mem_cons] at h2
        rcases h2 with h2 | h2
        · refine Or.inl ?_
          rw [List.map_append, h2]
          simp
        · exact Or.inr (Or.inl h2)
      · refine Or.inr (Or.inr ?_)
        have h2 := hcsplit m.id
        have haids : m.id ∈ g.ids := List.mem_map_of_mem _ hm
        have h3 := occ_succs g n.id m.id haids
        omega)
    (by
      intro x hx hmem
      have : x ∈ queue.map (·.id) :=
        ((hperm.map _).mem_iff).mp (by simp only [List.map_cons]; exact List.mem_cons_of_mem _ hmem)
      exact (hSguard x hx).2 this)
  obtain ⟨mc1, mc2, mc3, mc4, mc5⟩ := hmid
  refine ⟨mc3, ?_, fun a ha => (mc2 a ha).1, mc1, fun a ha => (mc2 a ha).2, mc4, ?_, ?_, ?_,
    fun x hx => ⟨hresS' x hx, mc5 x hx⟩⟩
  · intro a ha
    rcases List.mem_append.mp ha with h1 | h1
    · exact hResNodes a h1
    · rw [List.mem_singleton] at h1
      subst h1
      exact hnNodes
  · intro i hi
    rw [List.map_append] at hi
    rcases List.mem_append.mp hi with h1 | h1
    · have h0 := hResolved i h1
      have h2 := hcsplit i
      omega
    · simp only [List.map_cons, List.map_nil, List.mem_singleton] at h1
      subst h1
      have h2 := hcsplit n.id
      omega
  · intro e he j hj htgt
    rw [List.length_append, List.length_singleton] at hj
    by_cases hlt : j < result.length
    · have hget : (result ++ [n]).get ⟨j, by rw [List.length_append]; omega⟩ =
          result.get ⟨j, hlt⟩ := List.get_append j hlt
      rw [hget] at htgt
      have htake : (result ++ [n]).take j = result.take j :=
        List.take_append_of_le_length (by omega)
      rw [htake]
      exact hP4 e he j hlt htgt
    · have hje : j = result.length := by omega
      subst hje
      have hget : (result ++ [n]).get ⟨result.length, by simp⟩ = n := by
        simp
      rw [hget] at htgt
      have htake : (result ++ [n]).take result.length = result :=
        by rw [List.take_append_of_le_length (by omega), List.take_length]
      rw [htake]
      exact sources_placed_of_count_zero g result n.id hcount_n e he htgt.symm
  · intro j hj m hready
    rw [List.length_append, List.length_singleton] at hj
    by_cases hlt : j < result.length
    · have hget : (result ++ [n]).get ⟨j, by rw [List.length_append]; omega⟩ =
          result.get ⟨j, hlt⟩ := List.get_append j hlt
      have htake : (result ++ [n]).take j = result.take j :=
        List.take_append_of_le_length (by omega)
      rw [htake] at hready
      rw [hget]
      exact hP5 j hlt m hready
    · have hje : j = result.length := by omega
      subst hje
      have hget : (result ++ [n]).get ⟨result.length, by simp⟩ = n := by
        simp
      have htake : (result ++ [n]).take result.length = result :=
        by rw [List.take_append_of_le_length (by omega), List.take_length]
      rw [htake] at hready
      rw [hget]
      obtain ⟨hmN, hmnot, hmz⟩ := hready
      rcases hComp m hmN with h1 | h1 | h1
      · exact absurd h1 hmnot
      · have h2 : m.id ∈ (n :: rest).map (·.id) := ((hperm.map _).mem_iff).mpr h1
        obtain ⟨a, haq, haid⟩ := List.mem_map.mp h2
        rcases List.mem_cons.mp haq with h3 | h3
        · subst h3
          exact le_of_eq haid
        · have h4 := (List.sorted_cons.mp hsorted).1 a h3
          unfold TaskGraph.nodeLe at h4
          rw [← haid]
          exact h4
      · omega

theorem kahnLoop_final (g : TaskGraph) (S : String → Prop)
    (hS : ∀ x, S x → ∃ p, S p ∧ ∃ e ∈ g.edges, e.source_id = p ∧ e.target_id = x) :
    ∀ (fuel : Nat) (result queue : List TaskNode) (deg : String → Int),
      KahnInv g S result queue deg →
      g.nodes.length + 1 ≤ fuel + result.length →
      ∃ deg', KahnInv g S (TaskGraph.kahnLoop g fuel queue result deg) [] deg' := by
  intro fuel
  induction fuel with
  | zero =>
    intro result queue deg hinv hbound
    exfalso
    have h1 : (result.map (·.id)).Nodup := by
      have h0 := hinv.1
      rw [List.map_append] at h0
      exact (List.nodup_append.mp h0).1
    have hsub : result.map (·.id) ⊆ g.nodes.map (·.id) := by
      intro i hi
      obtain ⟨a, ha, haid⟩ := List.mem_map.mp hi
      exact haid ▸ List.mem_map_of_mem _ (hinv.2.1 a ha)
    have h2 := (List.subperm_of_subset h1 hsub).length_le
    rw [List.length_map, List.length_map] at h2
    omega
  | succ fuel ih =>
    intro result queue deg hinv hbound
    cases hsort : List.insertionSort TaskGraph.nodeLe queue with
    | nil =>
      have hq : queue = [] :=
        ((hsort ▸ List.perm_insertionSort TaskGraph.nodeLe queue).symm).eq_nil
      subst hq
      simp only [TaskGraph.kahnLoop, hsort]
      exact ⟨deg, hinv⟩
    | cons n rest =>
      simp only [TaskGraph.kahnLoop, hsort]
      have hstep := kahnStep g S hS result queue deg hinv n rest hsort
      exact ih (result ++ [n]) _ _ hstep
        (by rw [List.length_append, List.length_singleton]; omega)

theorem acc_of_subtype (g : TaskGraph) :
    ∀ a : {x // x ∈ g.ids}, Acc (fun a b : {x // x ∈ g.ids} =>
      Relation.TransGen (EdgeRelN g) a.1 b.1) a → Acc (EdgeRelN g) a.1 := by
  intro a ha
  induction ha with
  | intro b hb ih =>
    constructor
    intro y hy
    exact ih ⟨y, hy.1⟩ (Relation.TransGen.single hy)

theorem acyclic_wf (g : TaskGraph) (h : AcyclicN g) : WellFounded (EdgeRelN g) := by
  have hfin : Finite {x // x ∈ g.ids} := (List.finite_toSet g.ids).to_subtype
  haveI : IsTrans {x // x ∈ g.ids}
      (fun a b => Relation.TransGen (EdgeRelN g) a.1 b.1) :=
    ⟨fun _ _ _ hab hbc => hab.trans hbc⟩
  haveI : IsIrrefl {x // x ∈ g.ids}
      (fun a b => Relation.TransGen (EdgeRelN g) a.1 b.1) :=
    ⟨fun a haa => h a.1 haa⟩
  have hwf := Finite.wellFounded_of_trans_of_irrefl
    (fun a b : {x // x ∈ g.ids} => Relation.TransGen (EdgeRelN g) a.1 b.1)
  constructor
  intro x
  by_cases hx : x ∈ g.ids
  · exact acc_of_subtype g ⟨x, hx⟩ (hwf.apply ⟨x, hx⟩)
  · constructor
    intro y hy
    exact absurd hy.2.1 hx

theorem all_placed_of_acyclic (g : TaskGraph) (hacyc : AcyclicN g)
    (hwfe : ∀ e ∈ g.edges, e.target_id ∈ g.ids → e.source_id ∈ g.ids)
    (result : List TaskNode)
    (hcomp : ∀ m ∈ g.nodes, m.id ∈ result.map (·.id) ∨
      0 < countUnresolved g result m.id) :
    ∀ m ∈ g.nodes, m.id ∈ result.map (·.id) := by
  by_contra hcon
  push_neg at hcon
  obtain ⟨m, hm, hmnot⟩ := hcon
  have hne : Set.Nonempty {x | x ∈ g.ids ∧ ¬ x ∈ result.map (·.id)} :=
    ⟨m.id, List.mem_map_of_mem _ hm, hmnot⟩
  obtain ⟨u, ⟨huids, hunot⟩, hmin⟩ :=
    (acyclic_wf g hacyc).has_min {x | x ∈ g.ids ∧ ¬ x ∈ result.map (·.id)} hne
  obtain ⟨mu, hmu, hmuid⟩ := List.mem_map.mp huids
  have hcm := hcomp mu hmu
  rw [hmuid] at hcm
  rcases hcm with h1 | h1
  · exact hunot h1
  · obtain ⟨e, he, htgt, hsrc⟩ := count_pos_elim g result u h1
    have hsrcids : e.source_id ∈ g.ids := hwfe e he (htgt ▸ huids)
    have hrel : EdgeRelN g e.source_id u := ⟨hsrcids, huids, e, he, rfl, htgt⟩
    exact hmin e.source_id ⟨hsrcids, hsrc⟩ hrel

/-- C1 (amended): on a graph with duplicate-free node ids, no edge whose
source id names no node (among edges into the node set), and no directed
cycle among its nodes, `topological_sort` succeeds with a list holding
exactly the graph's N nodes, each exactly once; for every edge both of
whose endpoints are nodes, the source appears strictly before the target;
and each position holds the node with the lexicographically smallest id
among the nodes ready at that position, so the output is deterministic. -/
theorem C1_amended (g : TaskGraph)
    (hids : g.ids.Nodup)
    (hwfe : ∀ e ∈ g.edges, e.target_id ∈ g.ids → e.source_id ∈ g.ids)
    (hacyc : AcyclicN g) :
    ∃ res, TaskGraph.topological_sort g = Except.ok res ∧
      res.length = g.nodes.length ∧
      res.Perm g.nodes ∧
      (∀ e ∈ g.edges, ∀ j, ∀ hj : j < res.length, (res.get ⟨j, hj⟩).id = e.target_id →
        e.source_id ∈ (res.take j).map (·.id)) ∧
      (∀ j, ∀ hj : j < res.length, ∀ m, Ready g (res.take j) m →
        (res.get ⟨j, hj⟩).id ≤ m.id) := by
  have hinit := kahn_init g (fun _ => False) (fun x hx => hx.elim) hids
  obtain ⟨deg', hfin⟩ := kahnLoop_final g (fun _ => False) (fun x hx => hx.elim)
    (2 * g.nodes.length + 1) [] g.initQueue g.initDeg hinit (by omega)
  rw [show TaskGraph.kahnLoop g (2 * g.nodes.length + 1) g.initQueue [] g.initDeg
      = TaskGraph.kahnOrder g from rfl] at hfin
  obtain ⟨hNodup, hResNodes, _, _, _, hComp, hResolved, hP4, hP5, _⟩ := hfin
  rw [List.append_nil] at hNodup
  have hcomp' : ∀ m ∈ g.nodes, m.id ∈ (TaskGraph.kahnOrder g).map (·.id) ∨
      0 < countUnresolved g (TaskGraph.kahnOrder g) m.id := by
    intro m hm
    rcases hComp m hm with h | h | h
    · exact Or.inl h
    · simp at h
    · exact Or.inr h
  have hall := all_placed_of_acyclic g hacyc hwfe (TaskGraph.kahnOrder g) hcomp'
  have hresN : (TaskGraph.kahnOrder g).Nodup := hNodup.of_map
  have hnodesN : g.nodes.Nodup := hids.of_map
  have hmemiff : ∀ a, a ∈ TaskGraph.kahnOrder g ↔ a ∈ g.nodes := by
    intro a
    constructor
    · exact hResNodes a
    · intro ha
      obtain ⟨b, hb, hbid⟩ := List.mem_map.mp (hall a ha)
      have hbN := hResNodes b hb
      unfold TaskGraph.ids at hids
      have hba : b = a := List.inj_on_of_nodup_map hids hbN ha hbid
      exact hba ▸ hb
  have hperm : (TaskGraph.kahnOrder g).Perm g.nodes :=
    (List.perm_ext_iff_of_nodup hresN hnodesN).mpr hmemiff
  have hlen : (TaskGraph.kahnOrder g).length = g.nodes.length := hperm.length_eq
  refine ⟨TaskGraph.kahnOrder g, ?_, hlen, hperm, hP4, hP5⟩
  simp only [TaskGraph.topological_sort]
  rw [if_neg (by rw [hlen]; simp)]

theorem cycle_closed (g : TaskGraph) :
    ∀ x, Relation.TransGen (EdgeRelN g) x x →
      ∃ p, Relation.TransGen (EdgeRelN g) p p ∧
        ∃ e ∈ g.edges, e.source_id = p ∧ e.target_id = x := by
  intro x hx
  obtain ⟨c, hxc, hcx⟩ := (Relation.TransGen.tail'_iff).mp hx
  refine ⟨c, Relation.TransGen.trans_left (Relation.TransGen.single hcx) hxc, ?_⟩
  obtain ⟨_, _, e, he, hsrc, htgt⟩ := hcx
  exact ⟨e, he, hsrc, htgt⟩

theorem cycle_mem_ids (g : TaskGraph) (x : String)
    (hx : Relation.TransGen (EdgeRelN g) x x) : x ∈ g.ids := by
  obtain ⟨c, hxc, hcx⟩ := (Relation.TransGen.tail'_iff).mp hx
  exact hcx.2.1

/-- C3 (amended): on a graph with duplicate-free node ids that contains a
directed cycle among its nodes - decision nodes included - the
topological sort raises the cycle-detected condition, whose message names
exactly the ids of the nodes that could not be placed in the order; the
list is non-empty and contains every node lying on a directed cycle. -/
theorem C3_amended (g : TaskGraph)
    (hids : g.ids.Nodup)
    (hcyc : ∃ c, Relation.TransGen (EdgeRelN g) c c) :
    ∃ rem, TaskGraph.topological_sort g = Except.error rem ∧
      rem = (g.nodes.filter
        (fun n => ¬ (TaskGraph.kahnOrder g).any (fun r => r.id = n.id))).map (·.id) ∧
      rem ≠ [] ∧
      (∀ x, Relation.TransGen (EdgeRelN g) x x → x ∈ rem) := by
  have hinit := kahn_init g (fun x => Relation.TransGen (EdgeRelN g) x x)
    (cycle_closed g) hids
  obtain ⟨deg', hfin⟩ := kahnLoop_final g (fun x => Relation.TransGen (EdgeRelN g) x x)
    (cycle_closed g) (2 * g.nodes.length + 1) [] g.initQueue g.initDeg hinit (by omega)
  rw [show TaskGraph.kahnLoop g (2 * g.nodes.length + 1) g.initQueue [] g.initDeg
      = TaskGraph.kahnOrder g from rfl] at hfin
  obtain ⟨hNodup, hResNodes, _, _, _, _, _, _, _, hSguard⟩ := hfin
  rw [List.append_nil] at hNodup
  have hnot : ∀ x, Relation.TransGen (EdgeRelN g) x x →
      ¬ x ∈ (TaskGraph.kahnOrder g).map (·.id) := fun x hx => (hSguard x hx).1
  obtain ⟨c, hc⟩ := hcyc
  have hcids : c ∈ g.ids := cycle_mem_ids g c hc
  have hlenne : (TaskGraph.kahnOrder g).length ≠ g.nodes.length := by
    intro hlen
    have hsub : (TaskGraph.kahnOrder g).map (·.id) ⊆ g.ids := by
      intro i hi
      obtain ⟨a, ha, haid⟩ := List.mem_map.mp hi
      exact haid ▸ List.mem_map_of_mem _ (hResNodes a ha)
    have hsp := List.subperm_of_subset hNodup hsub
    have hlen2 : g.ids.length ≤ ((TaskGraph.kahnOrder g).map (·.id)).length := by
      unfold TaskGraph.ids
      rw [List.length_map, List.length_map, hlen]
    have hperm := hsp.perm_of_length_le hlen2
    exact hnot c hc (hperm.mem_iff.mpr hcids)
  obtain ⟨m, hm, hmid⟩ := List.mem_map.mp hcids
  have hmf : m ∈ g.nodes.filter
      (fun n => ¬ (TaskGraph.kahnOrder g).any (fun r => r.id = n.id)) := by
    refine List.mem_filter.mpr ⟨hm, ?_⟩
    simp only [decide_eq_true_eq, List.any_eq_true, not_exists]
    intro r hrx
    exact hnot c hc (List.mem_map.mpr ⟨r, hrx.1, by rw [hrx.2, hmid]⟩)
  refine ⟨_, ?_, rfl, ?_, ?_⟩
  · simp only [TaskGraph.topological_sort]
    rw [if_pos hlenne]
  · exact List.ne_nil_of_mem (List.mem_map_of_mem _ hmf)
  · intro x hx
    have hxids : x ∈ g.ids := cycle_mem_ids g x hx
    obtain ⟨mx, hmx, hmxid⟩ := List.mem_map.mp hxids
    have hmxf : mx ∈ g.nodes.filter
        (fun n => ¬ (TaskGraph.kahnOrder g).any (fun r => r.id = n.id)) := by
      refine List.mem_filter.mpr ⟨hmx, ?_⟩
      simp only [decide_eq_true_eq, List.any_eq_true, not_exists]
      intro r hrx
      exact hnot x hx (List.mem_map.mpr ⟨r, hrx.1, by rw [hrx.2, hmxid]⟩)
    exact hmxid ▸ List.mem_map_of_mem _ hmxf

/-- C1 witness: the amended claim at the concrete diamond graph. -/
theorem C1_amended_witness :
    ∃ res, TaskGraph.topological_sort diamondG = Except.ok res ∧
      res.length = diamondG.nodes.length ∧
      res.Perm diamondG.nodes ∧
      (∀ e ∈ diamondG.edges, ∀ j, ∀ hj : j < res.length,
        (res.get ⟨j, hj⟩).id = e.target_id →
        e.source_id ∈ (res.take j).map (·.id)) ∧
      (∀ j, ∀ hj : j < res.length, ∀ m, Ready diamondG (res.take j) m →
        (res.get ⟨j, hj⟩).id ≤ m.id) :=
  C1_amended diamondG (by decide) (by decide)
    (acyclic_of_rank diamondG
      (fun x => if x = "s" then 0 else if x = "e" then 2 else 1) (by decide))

/-- C3 witness: the amended claim at the concrete cyclic graph `gC3W`. -/
theorem C3_amended_witness :
    ∃ rem, TaskGraph.topological_sort gC3W = Except.error rem ∧
      rem = (gC3W.nodes.filter
        (fun n => ¬ (TaskGraph.kahnOrder gC3W).any (fun r => r.id = n.id))).map (·.id) ∧
      rem ≠ [] ∧
      (∀ x, Relation.TransGen (EdgeRelN gC3W) x x → x ∈ rem) :=
  C3_amended gC3W (by decide)
    ⟨"b", @Relation.TransGen.head String (EdgeRelN gC3W) "b" "c" "b" (by decide)
      (Relation.TransGen.single (by decide))⟩

theorem mem_get_predecessors {g : TaskGraph} {x : String} {p : TaskNode}
    (h : p ∈ g.get_predecessors x) :
    p ∈ g.nodes ∧ ∃ e ∈ g.edges, e.target_id = x ∧ e.source_id = p.id := by
  unfold TaskGraph.get_predecessors TaskGraph.get_incoming_edges at h
  obtain ⟨e, he, hn⟩ := List.mem_filterMap.mp h
  obtain ⟨he1, he2⟩ := List.mem_filter.mp he
  exact ⟨get_node_mem hn, e, he1, by simpa using he2, (get_node_id hn).symm⟩

theorem pred_edgeRel {g : TaskGraph} {x : String} {p : TaskNode}
    (hx : x ∈ g.ids) (h : p ∈ g.get_predecessors x) : EdgeRelN g p.id x := by
  obtain ⟨hpN, e, he, htgt, hsrc⟩ := mem_get_predecessors h
  exact ⟨List.mem_map_of_mem _ hpN, hx, e, he, hsrc, htgt⟩

theorem calcFold_correct (g : TaskGraph) (fuel : Nat) (vis' : List String)
    (hIH : ∀ (p : String) (lv : String → Option Nat), p ∈ g.ids →
      (∀ v ∈ vis', Relation.TransGen (EdgeRelN g) p v) →
      StoredOK g lv →
      StoredOK g (TaskGraph.calcLevel g fuel p vis' lv).2 ∧
      (TaskGraph.calcLevel g fuel p vis' lv).2 p =
        some (TaskGraph.calcLevel g fuel p vis' lv).1) :
    ∀ (ps : List TaskNode) (acc : Nat × (String → Option Nat)),
      StoredOK g acc.2 →
      (∀ p ∈ ps, p.id ∈ g.ids ∧ ∀ v ∈ vis', Relation.TransGen (EdgeRelN g) p.id v) →
      StoredOK g (ps.foldl (levelFoldStep g fuel vis') acc).2 ∧
      (∀ w j, acc.2 w = some j →
        (ps.foldl (levelFoldStep g fuel vis') acc).2 w = some j) ∧
      (∀ p ∈ ps, ((ps.foldl (levelFoldStep g fuel vis') acc).2 p.id).isSome = true) ∧
      (ps.foldl (levelFoldStep g fuel vis') acc).1 =
        (ps.map (fun p => ((ps.foldl (levelFoldStep g fuel vis') acc).2 p.id).getD 0)).foldl
          max acc.1 := by
  intro ps
  induction ps with
  | nil =>
    intro acc hst hps
    exact ⟨hst, fun w j h => h, fun p hp => absurd hp (List.not_mem_nil p), rfl⟩
  | cons p ps' ih =>
    intro acc hst hps
    have hp := hps p (List.mem_cons_self _ _)
    have hcall := hIH p.id acc.2 hp.1 hp.2 hst
    have hstep : (p :: ps').foldl (levelFoldStep g fuel vis') acc =
        ps'.foldl (levelFoldStep g fuel vis')
          (max acc.1 (TaskGraph.calcLevel g fuel p.id vis' acc.2).1,
           (TaskGraph.calcLevel g fuel p.id vis' acc.2).2) := by
      rw [List.foldl_cons]
      rfl
    rw [hstep]
    have hrest := ih (max acc.1 (TaskGraph.calcLevel g fuel p.id vis' acc.2).1,
        (TaskGraph.calcLevel g fuel p.id vis' acc.2).2) hcall.1
      (fun q hq => hps q (List.mem_cons_of_mem _ hq))
    obtain ⟨hr1, hr2, hr3, hr4⟩ := hrest
    have hpersist : ∀ w j, acc.2 w = some j →
        (ps'.foldl (levelFoldStep g fuel vis')
          (max acc.1 (TaskGraph.calcLevel g fuel p.id vis' acc.2).1,
           (TaskGraph.calcLevel g fuel p.id vis' acc.2).2)).2 w = some j := by
      intro w j h
      exact hr2 w j ((calcLevel_mono g fuel p.id vis' acc.2).1 w j h)
    have hpval : (ps'.foldl (levelFoldStep g fuel vis')
        (max acc.1 (TaskGraph.calcLevel g fuel p.id vis' acc.2).1,
         (TaskGraph.calcLevel g fuel p.id vis' acc.2).2)).2 p.id =
        some (TaskGraph.calcLevel g fuel p.id vis' acc.2).1 :=
      hr2 p.id _ hcall.2
    refine ⟨hr1, hpersist, ?_, ?_⟩
    · intro q hq
      rcases List.mem_cons.mp hq with h1 | h1
      · subst h1
        rw [hpval]
        rfl
      · exact hr3 q h1
    · rw [List.map_cons, List.foldl_cons, hpval]
      simpa using hr4

theorem calcLevel_correct (g : TaskGraph) (hacyc : AcyclicN g) :
    ∀ (fuel : Nat) (n : String) (vis : List String) (lv : String → Option Nat),
      n ∈ g.ids →
      (∀ v ∈ vis, Relation.TransGen (EdgeRelN g) n v) →
      vis.Nodup →
      (∀ v ∈ vis, v ∈ g.ids) →
      g.nodes.length + 1 ≤ fuel + vis.length →
      StoredOK g lv →
      StoredOK g (TaskGraph.calcLevel g fuel n vis lv).2 ∧
      (TaskGraph.calcLevel g fuel n vis lv).2 n =
        some (TaskGraph.calcLevel g fuel n vis lv).1 := by
  intro fuel
  induction fuel with
  | zero =>
    intro n vis lv hn h2 h3 h4 h5 h6
    exfalso
    have hle := (List.subperm_of_subset h3 h4).length_le
    unfold TaskGraph.ids at hle
    rw [List.length_map] at hle
    omega
  | succ fuel ih =>
    intro n vis lv hn h2 h3 h4 h5 h6
    cases hmem : lv n with
    | some k =>
      rw [calcLevel_succ_some g fuel n vis lv k hmem]
      exact ⟨h6, hmem⟩
    | none =>
      have hvis : ¬ n ∈ vis := fun hv => hacyc n (h2 n hv)
      by_cases hpe : (g.get_predecessors n).isEmpty = true
      · rw [calcLevel_succ_nopreds g fuel n vis lv hmem hvis hpe]
        refine ⟨?_, by simp [upd]⟩
        intro m k hmk
        by_cases hmn : m = n
        · subst hmn
          simp [upd] at hmk
          refine ⟨hn, ?_⟩
          rw [if_pos hpe]
          omega
        · simp only [upd, if_neg hmn] at hmk
          obtain ⟨hmids, hcond⟩ := h6 m k hmk
          refine ⟨hmids, ?_⟩
          by_cases hpem : (g.get_predecessors m).isEmpty = true
          · rw [if_pos hpem] at hcond ⊢
            exact hcond
          · rw [if_neg hpem] at hcond ⊢
            obtain ⟨hsome_p, hkeq⟩ := hcond
            have hpn : ∀ p ∈ g.get_predecessors m, ¬ p.id = n := by
              intro p hp hpid
              have := hsome_p p hp
              rw [hpid, hmem] at this
              cases this
            constructor
            · intro p hp
              simp only [upd, if_neg (hpn p hp)]
              exact hsome_p p hp
            · have hcong : (g.get_predecessors m).map
                  (fun p => ((upd lv n (some 0)) p.id).getD 0) =
                  (g.get_predecessors m).map (fun p => (lv p.id).getD 0) :=
                List.map_congr_left (fun p hp => by simp only [upd, if_neg (hpn p hp)])
              rw [hcong]
              exact hkeq
      · rw [calcLevel_succ_preds g fuel n vis lv hmem hvis hpe]
        have hIH : ∀ (p : String) (lv' : String → Option Nat), p ∈ g.ids →
            (∀ v ∈ n :: vis, Relation.TransGen (EdgeRelN g) p v) →
            StoredOK g lv' →
            StoredOK g (TaskGraph.calcLevel g fuel p (n :: vis) lv').2 ∧
            (TaskGraph.calcLevel g fuel p (n :: vis) lv').2 p =
              some (TaskGraph.calcLevel g fuel p (n :: vis) lv').1 := by
          intro p lv' hp hpv hst
          refine ih p (n :: vis) lv' hp hpv (List.nodup_cons.mpr ⟨hvis, h3⟩) ?_ ?_ hst
          · intro v hv
            rcases List.mem_cons.mp hv with h1 | h1
            · exact h1 ▸ hn
            · exact h4 v h1
          · rw [List.length_cons]
            omega
        have hps : ∀ p ∈ g.get_predecessors n, p.id ∈ g.ids ∧
            ∀ v ∈ n :: vis, Relation.TransGen (EdgeRelN g) p.id v := by
          intro p hp
          have hedge : EdgeRelN g p.id n := pred_edgeRel hn hp
          refine ⟨List.mem_map_of_mem _ (mem_get_predecessors hp).1, ?_⟩
          intro v hv
          rcases List.mem_cons.mp hv with h1 | h1
          · exact h1 ▸ Relation.TransGen.single hedge
          · exact Relation.TransGen.head hedge (h2 v h1)
        obtain ⟨hf1, hf2, hf3, hf4⟩ := calcFold_correct g fuel (n :: vis) hIH
          (g.get_predecessors n) (0, lv) h6 hps
        have hMn : ((g.get_predecessors n).foldl (levelFoldStep g fuel (n :: vis))
            (0, lv)).2 n = none :=
          calcFold_pres g fuel (n :: vis) (fun w => w n = none)
            (fun n' w hw =>
              (calcLevel_mono g fuel n' (n :: vis) w).2 n (List.mem_cons_self _ _) hw)
            (g.get_predecessors n) (0, lv) hmem
        have hpn_n : ∀ p ∈ g.get_predecessors n, ¬ p.id = n := by
          intro p hp hpid
          have he := pred_edgeRel hn hp
          rw [hpid] at he
          exact hacyc n (Relation.TransGen.single he)
        refine ⟨?_, by simp [upd]⟩
        intro m k hmk
        by_cases hmn : m = n
        · subst hmn
          simp [upd] at hmk
          refine ⟨hn, ?_⟩
          rw [if_neg hpe]
          constructor
          · intro p hp
            simp only [upd, if_neg (hpn_n p hp)]
            exact hf3 p hp
          · have hcong : (g.get_predecessors m).map
                (fun p => ((upd ((g.get_predecessors m).foldl
                  (levelFoldStep g fuel (m :: vis)) (0, lv)).2 m
                  (some (((g.get_predecessors m).foldl
                    (levelFoldStep g fuel (m :: vis)) (0, lv)).1 + 1))) p.id).getD 0) =
                (g.get_predecessors m).map
                  (fun p => (((g.get_predecessors m).foldl
                    (levelFoldStep g fuel (m :: vis)) (0, lv)).2 p.id).getD 0) :=
              List.map_congr_left (fun p hp => by simp only [upd, if_neg (hpn_n p hp)])
            rw [hcong, ← hf4]
            omega
        · simp only [upd, if_neg hmn] at hmk
          obtain ⟨hmids, hcond⟩ := hf1 m k hmk
          refine ⟨hmids, ?_⟩
          by_cases hpem : (g.get_predecessors m).isEmpty = true
          · rw [if_pos hpem] at hcond ⊢
            exact hcond
          · rw [if_neg hpem] at hcond ⊢
            obtain ⟨hsome_p, hkeq⟩ := hcond
            have hpn : ∀ p ∈ g.get_predecessors m, ¬ p.id = n := by
              intro p hp hpid
              have := hsome_p p hp
              rw [hpid, hMn] at this
              cases this
            constructor
            · intro p hp
              simp only [upd, if_neg (hpn p hp)]
              exact hsome_p p hp
            · have hcong : (g.get_predecessors m).map
                  (fun p => ((upd ((g.get_predecessors n).foldl
                    (levelFoldStep g fuel (n :: vis)) (0, lv)).2 n
                    (some (((g.get_predecessors n).foldl
                      (levelFoldStep g fuel (n :: vis)) (0, lv)).1 + 1))) p.id).getD 0) =
                  (g.get_predecessors m).map
                    (fun p => (((g.get_predecessors n).foldl
                      (levelFoldStep g fuel (n :: vis)) (0, lv)).2 p.id).getD 0) :=
                List.map_congr_left (fun p hp => by simp only [upd, if_neg (hpn p hp)])
              rw [hcong]
              exact hkeq

theorem computeLevels_ok (g : TaskGraph) (hacyc : AcyclicN g) :
    StoredOK g g.computeLevels ∧
    ∀ n ∈ g.nodes, (g.computeLevels n.id).isSome = true := by
  have hgen : ∀ (l : List TaskNode) (lv : String → Option Nat),
      (∀ x ∈ l, x ∈ g.nodes) → StoredOK g lv →
      StoredOK g (l.foldl (fun levels n =>
        (TaskGraph.calcLevel g (g.nodes.length + 1) n.id [] levels).2) lv) ∧
      ∀ n ∈ l, ((l.foldl (fun levels n =>
        (TaskGraph.calcLevel g (g.nodes.length + 1) n.id [] levels).2) lv) n.id).isSome
          = true := by
    intro l
    induction l with
    | nil => intro lv _ hst; exact ⟨hst, fun n hn => absurd hn (List.not_mem_nil n)⟩
    | cons x t ih =>
      intro lv hmem hst
      have hx : x.id ∈ g.ids := List.mem_map_of_mem _ (hmem x (List.mem_cons_self _ _))
      have hcall := calcLevel_correct g hacyc (g.nodes.length + 1) x.id [] lv hx
        (fun v hv => absurd hv (List.not_mem_nil v)) List.nodup_nil
        (fun v hv => absurd hv (List.not_mem_nil v)) (by simp) hst
      have hrest := ih _ (fun y hy => hmem y (List.mem_cons_of_mem _ hy)) hcall.1
      refine ⟨hrest.1, ?_⟩
      intro n hn
      rcases List.mem_cons.mp hn with h1 | h1
      · subst h1
        have hpers := computeFold_pres_some g t
          ((TaskGraph.calcLevel g (g.nodes.length + 1) n.id [] lv).2) n.id _ hcall.2
        simp only [List.foldl_cons]
        rw [hpers]
        rfl
      · exact hrest.2 n h1
  unfold TaskGraph.computeLevels
  have := hgen g.nodes (fun _ => none) (fun x hx => hx) (fun m k h => by cases h)
  exact this

theorem levelOf_isLevelAssign (g : TaskGraph) (hacyc : AcyclicN g) :
    IsLevelAssign g (TaskGraph.levelOf g) := by
  obtain ⟨hok, hsome⟩ := computeLevels_ok g hacyc
  intro n hn
  obtain ⟨k, hk⟩ := Option.isSome_iff_exists.mp (hsome n hn)
  obtain ⟨hids, hcond⟩ := hok n.id k hk
  show TaskGraph.levelOf g n.id =
    if (g.get_predecessors n.id).isEmpty then 0
    else ((g.get_predecessors n.id).map
      (fun p => TaskGraph.levelOf g p.id)).foldl max 0 + 1
  by_cases hpe : (g.get_predecessors n.id).isEmpty = true
  · rw [if_pos hpe]
    rw [if_pos hpe] at hcond
    unfold TaskGraph.levelOf
    rw [hk]
    simpa using hcond
  · rw [if_neg hpe]
    rw [if_neg hpe] at hcond
    unfold TaskGraph.levelOf
    rw [hk]
    simpa using hcond.2

theorem levelAssign_unique (g : TaskGraph) (hacyc : AcyclicN g)
    (f f' : String → Nat) (hf : IsLevelAssign g f) (hf' : IsLevelAssign g f') :
    ∀ n ∈ g.nodes, f n.id = f' n.id := by
  suffices h : ∀ x, ∀ n, n ∈ g.nodes → n.id = x → f x = f' x by
    exact fun n hn => h n.id n hn rfl
  intro x
  induction x using (acyclic_wf g hacyc).induction with
  | _ x ihx =>
    intro n hn hnx
    subst hnx
    have e1 := hf n hn
    have e2 := hf' n hn
    simp only [] at e1 e2
    rw [e1, e2]
    by_cases hpe : (g.get_predecessors n.id).isEmpty = true
    · rw [if_pos hpe, if_pos hpe]
    · rw [if_neg hpe, if_neg hpe]
      have hcong : (g.get_predecessors n.id).map (fun p => f p.id) =
          (g.get_predecessors n.id).map (fun p => f' p.id) := by
        refine List.map_congr_left ?_
        intro p hp
        have hedge : EdgeRelN g p.id n.id :=
          pred_edgeRel (List.mem_map_of_mem _ hn) hp
        exact ihx p.id hedge p (mem_get_predecessors hp).1 rfl
      rw [hcong]

theorem le_foldl_max : ∀ (l : List Nat) (b : Nat), b ≤ l.foldl max b := by
  intro l
  induction l with
  | nil => intro b; exact le_refl b
  | cons x t ih => intro b; exact le_trans (le_max_left b x) (ih (max b x))

theorem foldl_max_le : ∀ (l : List Nat) (b a : Nat), a ∈ l → a ≤ l.foldl max b := by
  intro l
  induction l with
  | nil => intro b a ha; cases ha
  | cons x t ih =>
    intro b a ha
    rcases List.mem_cons.mp ha with h | h
    · subst h
      exact le_trans (le_max_right b a) (le_foldl_max t _)
    · exact ih _ a h

theorem foldl_max_mem : ∀ (l : List Nat) (b : Nat),
    l.foldl max b = b ∨ l.foldl max b ∈ l := by
  intro l
  induction l with
  | nil => intro b; exact Or.inl rfl
  | cons x t ih =>
    intro b
    rw [List.foldl_cons]
    rcases ih (max b x) with h | h
    · rw [h]
      rcases max_choice b x with h2 | h2
      · exact Or.inl h2
      · refine Or.inr ?_
        rw [h2]
        exact List.mem_cons_self _ _
    · exact Or.inr (List.mem_cons_of_mem _ h)

theorem maxLevel_attained (g : TaskGraph) (hne : g.nodes ≠ []) :
    ∃ n ∈ g.nodes, TaskGraph.levelOf g n.id = maxLevel g := by
  rcases foldl_max_mem (g.nodes.map (fun n => TaskGraph.levelOf g n.id)) 0 with h | h
  · obtain ⟨n0, hn0⟩ := List.exists_mem_of_ne_nil _ hne
    refine ⟨n0, hn0, ?_⟩
    have hle := foldl_max_le (g.nodes.map (fun n => TaskGraph.levelOf g n.id)) 0
      (TaskGraph.levelOf g n0.id) (List.mem_map_of_mem _ hn0)
    unfold maxLevel
    unfold maxLevel at h
    omega
  · obtain ⟨n, hn, hna⟩ := List.mem_map.mp h
    exact ⟨n, hn, hna⟩

theorem level_attained_down (g : TaskGraph) (hacyc : AcyclicN g) (k : Nat)
    (h : ∃ n ∈ g.nodes, TaskGraph.levelOf g n.id = k + 1) :
    ∃ n ∈ g.nodes, TaskGraph.levelOf g n.id = k := by
  obtain ⟨n, hn, hlev⟩ := h
  have hass := levelOf_isLevelAssign g hacyc n hn
  simp only [] at hass
  by_cases hpe : (g.get_predecessors n.id).isEmpty = true
  · rw [if_pos hpe] at hass
    omega
  · rw [if_neg hpe] at hass
    have hfold : ((g.get_predecessors n.id).map
        (fun p => TaskGraph.levelOf g p.id)).foldl max 0 = k := by omega
    rcases foldl_max_mem ((g.get_predecessors n.id).map
        (fun p => TaskGraph.levelOf g p.id)) 0 with h2 | h2
    · have hk0 : k = 0 := by omega
      have hne : g.get_predecessors n.id ≠ [] := by
        intro hnil
        rw [List.isEmpty_iff] at hpe
        exact hpe hnil
      obtain ⟨p, hp⟩ := List.exists_mem_of_ne_nil _ hne
      refine ⟨p, (mem_get_predecessors hp).1, ?_⟩
      have hle := foldl_max_le ((g.get_predecessors n.id).map
        (fun p => TaskGraph.levelOf g p.id)) 0 (TaskGraph.levelOf g p.id)
        (List.mem_map_of_mem _ hp)
      omega
    · rw [hfold] at h2
      obtain ⟨p, hp, hpk⟩ := List.mem_map.mp h2
      exact ⟨p, (mem_get_predecessors hp).1, hpk⟩

theorem level_attained_le (g : TaskGraph) (hacyc : AcyclicN g) :
    ∀ j, (∃ n ∈ g.nodes, TaskGraph.levelOf g n.id = j) →
      ∀ k, k ≤ j → ∃ n ∈ g.nodes, TaskGraph.levelOf g n.id = k := by
  intro j
  induction j with
  | zero =>
    intro hj k hk
    have : k = 0 := by omega
    exact this ▸ hj
  | succ j ih =>
    intro hj k hk
    by_cases hkj : k = j + 1
    · exact hkj ▸ hj
    · exact ih (level_attained_down g hacyc j hj) k (by omega)

theorem groups_eq_range (g : TaskGraph) (hacyc : AcyclicN g) :
    g.get_parallel_groups =
      (if g.nodes.isEmpty then []
       else (List.range (maxLevel g + 1)).map
         (fun k => g.nodes.filter (fun n => TaskGraph.levelOf g n.id = k))) := by
  by_cases hne : g.nodes.isEmpty = true
  · rw [if_pos hne]
    have h0 : g.nodes = [] := List.isEmpty_iff.mp hne
    simp [TaskGraph.get_parallel_groups, h0]
  · rw [if_neg hne]
    have hne' : g.nodes ≠ [] := by
      intro h0
      rw [h0] at hne
      exact hne rfl
    have hks : List.insertionSort (· ≤ ·)
        ((g.nodes.map (fun n => TaskGraph.levelOf g n.id)).dedup) =
        List.range (maxLevel g + 1) := by
      have hperm : (List.insertionSort (· ≤ ·)
          ((g.nodes.map (fun n => TaskGraph.levelOf g n.id)).dedup)).Perm
          (List.range (maxLevel g + 1)) := by
        refine (List.perm_insertionSort _ _).trans ?_
        refine (List.perm_ext_iff_of_nodup (List.nodup_dedup _) (List.nodup_range _)).mpr ?_
        intro a
        rw [List.mem_dedup, List.mem_range]
        constructor
        · intro ha
          have hle := foldl_max_le (g.nodes.map (fun n => TaskGraph.levelOf g n.id)) 0 a ha
          unfold maxLevel
          omega
        · intro ha
          obtain ⟨n, hn, hna⟩ := level_attained_le g hacyc (maxLevel g)
            (maxLevel_attained g hne') a (by omega)
          exact List.mem_map.mpr ⟨n, hn, hna⟩
      have hsorted1 : List.Sorted (· ≤ ·) (List.insertionSort (· ≤ ·)
          ((g.nodes.map (fun n => TaskGraph.levelOf g n.id)).dedup)) :=
        List.sorted_insertionSort _ _
      have hsorted2 : List.Sorted (fun a b : Nat => a ≤ b)
          (List.range (maxLevel g + 1)) :=
        (List.pairwise_lt_range _).imp (fun h => le_of_lt h)
      exact List.eq_of_perm_of_sorted hperm hsorted1 hsorted2
    simp only [TaskGraph.get_parallel_groups]
    rw [hks]

/-- C4: on every graph with no directed cycle among its nodes, the level
the code assigns satisfies the spec recursion (no predecessors: level 0;
otherwise max of the predecessors' levels plus 1), that recursion has a
unique solution on the graph's nodes, and `get_parallel_groups` returns,
in ascending order, one group per level 0..maxLevel holding exactly the
nodes of that level; on the chain start->A->B->end the groups are the four
singletons in order, and on the diamond A and B share a group. -/
theorem C4_parallel_groups (g : TaskGraph) (hacyc : AcyclicN g) :
    IsLevelAssign g (TaskGraph.levelOf g) ∧
    (∀ f f' : String → Nat, IsLevelAssign g f → IsLevelAssign g f' →
      ∀ n ∈ g.nodes, f n.id = f' n.id) ∧
    g.get_parallel_groups =
      (if g.nodes.isEmpty then []
       else (List.range (maxLevel g + 1)).map
         (fun k => g.nodes.filter (fun n => TaskGraph.levelOf g n.id = k))) ∧
    (chainG.get_parallel_groups).map (fun grp => grp.map (·.id)) =
      [["s"], ["a"], ["b"], ["e"]] ∧
    (diamondG.get_parallel_groups).map (fun grp => grp.map (·.id)) =
      [["s"], ["a", "b"], ["e"]] :=
  ⟨levelOf_isLevelAssign g hacyc,
   fun f f' hf hf' => levelAssign_unique g hacyc f f' hf hf',
   groups_eq_range g hacyc, by decide, by decide⟩

/-- C4 witness: the claim instantiated at the concrete chain graph. -/
theorem C4_witness :
    IsLevelAssign chainG (TaskGraph.levelOf chainG) ∧
    (∀ f f' : String → Nat, IsLevelAssign chainG f → IsLevelAssign chainG f' →
      ∀ n ∈ chainG.nodes, f n.id = f' n.id) ∧
    chainG.get_parallel_groups =
      (if chainG.nodes.isEmpty then []
       else (List.range (maxLevel chainG + 1)).map
         (fun k => chainG.nodes.filter (fun n => TaskGraph.levelOf chainG n.id = k))) ∧
    (chainG.get_parallel_groups).map (fun grp => grp.map (·.id)) =
      [["s"], ["a"], ["b"], ["e"]] ∧
    (diamondG.get_parallel_groups).map (fun grp => grp.map (·.id)) =
      [["s"], ["a", "b"], ["e"]] :=
  C4_parallel_groups chainG (acyclic_of_rank chainG
    (fun x => if x = "s" then 0 else if x = "a" then 1 else if x = "b" then 2 else 3)
    (by decide))
